import Mathlib

/-!
# go-bitset: a byte-backed, fixed-capacity bit set

Shallow embedding of `bitset.go`.

* A `uint64` is a natural number below `2 ^ 64`; a `byte` is a natural number
  below `2 ^ 8`. Arithmetic that can wrap carries an explicit `%`.
* A method with a pointer receiver returns the receiver's new value.
* A run-time panic (slice index out of range) is `none`; a returned `error`
  is the `Except.error` / `some msg` component of the result.
-/

namespace Bitset

/-! ## Data model -/

/-- The struct `BitSet`: the byte buffer and the nominal number of bits. -/
structure BitSet where
  bytes : List Nat
  bitsCount : Nat
deriving DecidableEq, Repr

/-- The constant `byteSize`. -/
def byteSize : Nat := 8

/-! ## Library functions used by the source -/

/-- Number of low-order bits that the conversion `float64(x)` has to drop for a
`uint64` value `x`: zero below `2 ^ 53`, one more for every further binary digit. -/
def float64Drop (x : Nat) : Nat :=
  ((List.range 11).filter (fun k => decide (2 ^ (53 + k) ≤ x))).length

/-- The conversion `float64(x)` of a `uint64` value `x`: the nearest number with a
53-bit significand, ties going to the even significand. The result is a whole
number, returned as such. -/
def float64OfUint64 (x : Nat) : Nat :=
  let e := float64Drop x
  let q := x / 2 ^ e
  let r := x % 2 ^ e
  if 2 * r < 2 ^ e then q * 2 ^ e
  else if 2 ^ e < 2 * r then (q + 1) * 2 ^ e
  else if q % 2 = 0 then q * 2 ^ e
  else (q + 1) * 2 ^ e

/-- The function `bits.OnesCount8`: the number of one bits among the eight bits of a byte. -/
def OnesCount8 (x : Nat) : Nat :=
  ((List.range 8).filter (fun k => x.testBit k)).length

/-- The builtin `copy(dst, src)`: overwrites the first `min (len dst) (len src)`
elements of `dst` with those of `src`. -/
def copy (dst src : List Nat) : List Nat :=
  src.take (min dst.length src.length) ++ dst.drop (min dst.length src.length)

/-! ## The functions of `bitset.go` -/

/-- The function `bytesCount`: `int(math.Ceil(float64(bitsCount) / float64(byteSize)))`.
Dividing a double by `8` only lowers its exponent, so the quotient is the exact
rational; `math.Ceil` of it is a whole number below `2 ^ 62`, which a 64-bit `int`
keeps. -/
def bytesCount (bitsCount : Nat) : Nat :=
  (Int.ceil ((float64OfUint64 bitsCount : ℚ) / (float64OfUint64 byteSize : ℚ))).toNat

/-- The constant `maxAlloc` of the Go runtime on a 64-bit platform: the largest
number of bytes that `make` accepts. -/
def maxAlloc : Nat := 2 ^ 48

/-- The call `make([]byte, k)`: `k` zero bytes, or the panic `makeslice: len out of
range` (`none`) when `k` exceeds `maxAlloc`. Memory within that limit is taken to
be available. -/
def make (k : Nat) : Option (List Nat) :=
  if k ≤ maxAlloc then some (List.replicate k 0) else none

/-- The function `New`: the returned pair of BitSet and error, or `none` when
`make` panics. -/
def New (bitsCount : Nat) : Option (Except String BitSet) :=
  if bitsCount ≤ 0 then
    some (Except.error "bitsCount must be a postive number")
  else
    match make (bytesCount bitsCount) with
    | none => none
    | some bytes => some (Except.ok ⟨bytes, bitsCount⟩)

/-- The function `NewFromBytes`. The length of an existing slice is within what
`make` accepts. -/
def NewFromBytes (bitsCount : Nat) (bytes : List Nat) : BitSet :=
  let newBytes := List.replicate bytes.length 0
  let newBytes := copy newBytes bytes
  ⟨newBytes, bitsCount⟩

/-- The mask `uint8(1) << uint8(bitsIndex % byteSize)`. -/
def bitmask (bitsIndex : Nat) : Nat :=
  (1 <<< ((bitsIndex % byteSize) % 2 ^ 8)) % 2 ^ 8

namespace BitSet

/-- The method `Bytes`. -/
def Bytes (b : BitSet) : List Nat := b.bytes

/-- The method `BitsCount`. -/
def BitsCount (b : BitSet) : Nat := b.bitsCount

/-- The method `BytesCount`. -/
def BytesCount (b : BitSet) : Nat := b.bytes.length

/-- The method `Set`; `none` when `b.bytes[bytesIndex]` is out of range. -/
def Set (b : BitSet) (bitsIndex : Nat) : Option BitSet :=
  let bytesIndex := bitsIndex / byteSize
  let bitmask := bitmask bitsIndex
  match b.bytes[bytesIndex]? with
  | none => none
  | some x => some { b with bytes := b.bytes.set bytesIndex (x ||| bitmask) }

/-- The method `Test`; `none` when `b.bytes[bytesIndex]` is out of range. -/
def Test (b : BitSet) (bitsIndex : Nat) : Option Bool :=
  let bytesIndex := bitsIndex / byteSize
  let bitmask := bitmask bitsIndex
  match b.bytes[bytesIndex]? with
  | none => none
  | some x => some (decide ((x &&& bitmask) > 0))

/-- The method `Copy`. -/
def Copy (b : BitSet) : BitSet :=
  NewFromBytes b.bitsCount b.bytes

/-- The loop `for i := range bytes { bytes[i] = op bytes[i] other[i] }`, with `n`
iterations left and `i` the current index; `none` when an index is out of range. -/
def rangeLoop (op : Nat → Nat → Nat) (other : List Nat) : Nat → Nat → List Nat → Option (List Nat)
  | 0, _, bytes => some bytes
  | n + 1, i, bytes =>
    match bytes[i]?, other[i]? with
    | some x, some y => rangeLoop op other n (i + 1) (bytes.set i (op x y))
    | _, _ => none

/-- The method `Union`: the receiver after the call and the returned error. -/
def Union (b other : BitSet) : Option (BitSet × Option String) :=
  if b.BytesCount ≠ other.BytesCount then
    some (b, some "cannot union BitSets of differing size")
  else
    match rangeLoop (fun x y => x ||| y) other.bytes b.bytes.length 0 b.bytes with
    | none => none
    | some bytes => some ({ b with bytes := bytes }, none)

/-- The method `Intersect`: the receiver after the call and the returned error. -/
def Intersect (b other : BitSet) : Option (BitSet × Option String) :=
  if b.BytesCount ≠ other.BytesCount then
    some (b, some "cannot intersect BitSets of differing size")
  else
    match rangeLoop (fun x y => x &&& y) other.bytes b.bytes.length 0 b.bytes with
    | none => none
    | some bytes => some ({ b with bytes := bytes }, none)

/-- The method `OnesCount`: a `uint64` counter running over the buffer. -/
def OnesCount (b : BitSet) : Nat :=
  b.Bytes.foldl (fun count bb => (count + OnesCount8 bb % 2 ^ 64) % 2 ^ 64) 0

end BitSet

/-! ## Auxiliary definitions for the statements -/

/-- The sequence of calls `Set(i_1)`, ..., `Set(i_k)`. -/
def SetAll (b : BitSet) (is : List Nat) : Option BitSet :=
  is.foldlM (fun b i => b.Set i) b

/-- The number of bit indices of a buffer whose bit is one. -/
def onesIn (bytes : List Nat) : Nat :=
  ((List.range (8 * bytes.length)).filter
    (fun i => (bytes[i / 8]?).map (fun x => x.testBit (i % 8)) == some true)).length

/-! ## Pointers and aliasing

The methods have a pointer receiver `*BitSet` and write through the slice
`b.bytes` into its backing array. For the claims about aliasing the backing
arrays live in a heap, addressed by position; `make` appends a fresh array. The
fields of the struct never change after construction, so a `*BitSet` is the
address of its backing array together with its `bitsCount`. A slice is
identified with its backing array. -/

/-- The backing arrays of all byte slices, by address. -/
abbrev Heap := List (List Nat)

/-- A `*BitSet`. -/
structure Ref where
  addr : Nat
  bitsCount : Nat
deriving DecidableEq, Repr

namespace Heap

/-- The value of the struct behind a pointer. -/
def load (h : Heap) (p : Ref) : Option BitSet :=
  match h[p.addr]? with
  | none => none
  | some bytes => some ⟨bytes, p.bitsCount⟩

/-- The expression `&BitSet{newBytes, bitsCount}` for a buffer that `make` has just
created: the buffer takes the next free address. -/
def alloc (h : Heap) (b : BitSet) : Heap × Ref :=
  (h ++ [b.bytes], ⟨h.length, b.bitsCount⟩)

/-- The writes of a method through its receiver. -/
def store (h : Heap) (p : Ref) (b : BitSet) : Heap :=
  h.set p.addr b.bytes

/-- The function `NewFromBytes` applied to a slice over the array at address `src`. -/
def NewFromBytes (h : Heap) (bitsCount : Nat) (src : Nat) : Option (Heap × Ref) :=
  match h[src]? with
  | none => none
  | some bytes => some (alloc h (Bitset.NewFromBytes bitsCount bytes))

/-- The method `Copy`: `NewFromBytes(b.bitsCount, b.bytes)`. -/
def Copy (h : Heap) (p : Ref) : Option (Heap × Ref) :=
  NewFromBytes h p.bitsCount p.addr

/-- The method `Set` through a pointer. -/
def Set (h : Heap) (p : Ref) (bitsIndex : Nat) : Option Heap :=
  match load h p with
  | none => none
  | some b =>
    match b.Set bitsIndex with
    | none => none
    | some b' => some (store h p b')

/-- The method `Union` through pointers; the two pointers may be the same. -/
def Union (h : Heap) (p other : Ref) : Option (Heap × Option String) :=
  match load h p, load h other with
  | some a, some b =>
    match a.Union b with
    | none => none
    | some (a', err) => some (store h p a', err)
  | _, _ => none

/-- The method `Intersect` through pointers; the two pointers may be the same. -/
def Intersect (h : Heap) (p other : Ref) : Option (Heap × Option String) :=
  match load h p, load h other with
  | some a, some b =>
    match a.Intersect b with
    | none => none
    | some (a', err) => some (store h p a', err)
  | _, _ => none

/-- A mutating call on a BitSet. -/
inductive Op where
  | set (p : Ref) (bitsIndex : Nat)
  | union (p other : Ref)
  | intersect (p other : Ref)
deriving DecidableEq, Repr

/-- The receiver of a call. -/
def Op.receiver : Op → Ref
  | Op.set p _ => p
  | Op.union p _ => p
  | Op.intersect p _ => p

/-- One call; the returned error, if any, is dropped. -/
def step (h : Heap) : Op → Option Heap
  | Op.set p i => Set h p i
  | Op.union p q => (Union h p q).map Prod.fst
  | Op.intersect p q => (Intersect h p q).map Prod.fst

/-- A sequence of calls. -/
def run (h : Heap) (ops : List Op) : Option Heap :=
  ops.foldlM step h

end Heap

/-! ## Hexadecimal encoding -/

/-- The constant `hextable` of `encoding/hex`: the string `0123456789abcdef`. -/
def hextable : List Char :=
  ['0', '1', '2', '3', '4', '5', '6', '7', '8', '9', 'a', 'b', 'c', 'd', 'e', 'f']

/-- The loop of `hex.Encode`: for every byte `v` of the source, `hextable[v>>4]`
followed by `hextable[v&0x0f]`. Both indices are below `16` for a byte. -/
def Encode : List Nat → List Char
  | [] => []
  | v :: src => hextable.getD (v >>> 4) ' ' :: hextable.getD (v &&& 0x0f) ' ' :: Encode src

/-- The function `hex.EncodeToString`. -/
def EncodeToString (src : List Nat) : String :=
  String.mk (Encode src)

/-- The method `HexEncode`. -/
def BitSet.HexEncode (b : BitSet) : String :=
  EncodeToString b.bytes

/-! ## State at a panic -/

/-- The method `Set` followed up to its return or its panic: the receiver at that
point, and whether the call panicked. The body has one write, the assignment to
`b.bytes[bytesIndex]`, and the bounds check of that index comes before it. -/
def BitSet.SetOutcome (b : BitSet) (bitsIndex : Nat) : BitSet × Bool :=
  let bytesIndex := bitsIndex / byteSize
  let bitmask := bitmask bitsIndex
  if h : bytesIndex < b.bytes.length then
    ({ b with bytes := b.bytes.set bytesIndex (b.bytes.get ⟨bytesIndex, h⟩ ||| bitmask) }, false)
  else
    (b, true)

/-! ## The public interface -/

/-- A BitSet that the public interface can produce: created by `New` or
`NewFromBytes`, then modified by `Set`, `Union`, `Intersect` and `Copy`, the
other operand of `Union` and `Intersect` being such a BitSet too. -/
inductive Reachable : BitSet → Prop where
  | new (n : Nat) (b : BitSet) : New n = some (Except.ok b) → Reachable b
  | newFromBytes (k : Nat) (bs : List Nat) : Reachable (NewFromBytes k bs)
  | set (b b' : BitSet) (i : Nat) : Reachable b → b.Set i = some b' → Reachable b'
  | union (b other b' : BitSet) (err : Option String) :
      Reachable b → Reachable other → b.Union other = some (b', err) → Reachable b'
  | intersect (b other b' : BitSet) (err : Option String) :
      Reachable b → Reachable other → b.Intersect other = some (b', err) → Reachable b'
  | copy (b : BitSet) : Reachable b → Reachable b.Copy

/-- The BitSets that a given BitSet `b0` can turn into under any sequence of
`Set`, `Union`, `Intersect` and `Copy`, whatever the other operands are. -/
inductive Evolves (b0 : BitSet) : BitSet → Prop where
  | start : Evolves b0 b0
  | set (b b' : BitSet) (i : Nat) : Evolves b0 b → b.Set i = some b' → Evolves b0 b'
  | union (b other b' : BitSet) (err : Option String) :
      Evolves b0 b → b.Union other = some (b', err) → Evolves b0 b'
  | intersect (b other b' : BitSet) (err : Option String) :
      Evolves b0 b → b.Intersect other = some (b', err) → Evolves b0 b'
  | copy (b : BitSet) : Evolves b0 b → Evolves b0 b.Copy

/-! ## Arithmetic of `bytesCount` -/

theorem float64OfUint64_byteSize : float64OfUint64 byteSize = 8 := by decide

theorem ceil_div_eight (a m : Nat) (h3 : a ≤ 8 * m) (h4 : 8 * m < a + 8) :
    Int.ceil ((a : ℚ) / ((8 : ℕ) : ℚ)) = (m : ℤ) := by
  have h3q : (a : ℚ) ≤ 8 * (m : ℚ) := by exact_mod_cast h3
  have h4q : 8 * (m : ℚ) < (a : ℚ) + 8 := by exact_mod_cast h4
  rw [Int.ceil_eq_iff]
  push_cast
  constructor
  · rw [lt_div_iff₀ (by norm_num)]; linarith
  · rw [div_le_iff₀ (by norm_num)]; linarith

/-- The ceiling taken in `bytesCount`, in integer arithmetic. -/
theorem bytesCount_eq (n : Nat) : bytesCount n = (float64OfUint64 n + 7) / 8 := by
  unfold bytesCount
  rw [float64OfUint64_byteSize, ceil_div_eight _ ((float64OfUint64 n + 7) / 8) (by omega) (by omega)]
  exact Int.toNat_natCast _

theorem float64Drop_of_lt (n : Nat) (h : n < 2 ^ 53) : float64Drop n = 0 := by
  unfold float64Drop
  rw [List.length_eq_zero, List.filter_eq_nil_iff]
  intro k _
  have : 2 ^ 53 ≤ 2 ^ (53 + k) := Nat.pow_le_pow_right (by norm_num) (by omega)
  simp only [decide_eq_true_eq]
  omega

/-- Below `2 ^ 53` the conversion to `float64` is exact. -/
theorem float64OfUint64_of_lt (n : Nat) (h : n < 2 ^ 53) : float64OfUint64 n = n := by
  unfold float64OfUint64
  simp [float64Drop_of_lt n h, Nat.mod_one]

/-- Below `2 ^ 53` bits, `bytesCount` is the integer ceiling of `n / 8`. -/
theorem bytesCount_of_lt (n : Nat) (h : n < 2 ^ 53) : bytesCount n = (n + 7) / 8 := by
  rw [bytesCount_eq, float64OfUint64_of_lt n h]

/-- The conversion to `float64` loses less than `2 ^ 11`. -/
theorem float64OfUint64_lower (n : Nat) : n < float64OfUint64 n + 2 ^ 11 := by
  have he : float64Drop n ≤ 11 := by
    unfold float64Drop
    exact (List.length_filter_le _ _).trans (by simp)
  have hp : 2 ^ float64Drop n ≤ 2 ^ 11 := Nat.pow_le_pow_right (by norm_num) he
  have hdm : 2 ^ float64Drop n * (n / 2 ^ float64Drop n) + n % 2 ^ float64Drop n = n :=
    Nat.div_add_mod n _
  have hr : n % 2 ^ float64Drop n < 2 ^ float64Drop n :=
    Nat.mod_lt _ (Nat.pow_pos (by norm_num))
  have hc : 2 ^ float64Drop n * (n / 2 ^ float64Drop n)
      = n / 2 ^ float64Drop n * 2 ^ float64Drop n := Nat.mul_comm _ _
  have hs : (n / 2 ^ float64Drop n + 1) * 2 ^ float64Drop n
      = n / 2 ^ float64Drop n * 2 ^ float64Drop n + 2 ^ float64Drop n := by
    rw [Nat.add_mul, Nat.one_mul]
  unfold float64OfUint64
  simp only []
  split_ifs <;> omega

/-- A byte count that `make` accepts is the exact ceiling of `n / 8`, and only
bit counts below `2 ^ 53` have one. -/
theorem bytesCount_le_maxAlloc (n : Nat) (h : bytesCount n ≤ maxAlloc) :
    n < 2 ^ 53 ∧ bytesCount n = (n + 7) / 8 := by
  have hlow := float64OfUint64_lower n
  rw [bytesCount_eq] at h
  unfold maxAlloc at h
  have hn : n < 2 ^ 53 := by omega
  exact ⟨hn, bytesCount_of_lt n hn⟩

theorem bytesCount_le_maxAlloc_iff (n : Nat) :
    bytesCount n ≤ maxAlloc ↔ (n + 7) / 8 ≤ maxAlloc := by
  constructor
  · intro h
    rw [← (bytesCount_le_maxAlloc n h).2]
    exact h
  · intro h
    have hn : n < 2 ^ 53 := by unfold maxAlloc at h; omega
    rw [bytesCount_of_lt n hn]
    exact h

/-! ## Bit-level facts -/

theorem bitmask_eq (i : Nat) : bitmask i = 2 ^ (i % 8) := by
  unfold bitmask byteSize
  have h8 : i % 8 < 8 := Nat.mod_lt _ (by norm_num)
  have h1 : i % 8 % 2 ^ 8 = i % 8 := Nat.mod_eq_of_lt (by omega)
  rw [h1, Nat.one_shiftLeft]
  apply Nat.mod_eq_of_lt
  calc 2 ^ (i % 8) < 2 ^ 8 := Nat.pow_lt_pow_right (by norm_num) h8
    _ = 2 ^ 8 := rfl

theorem and_two_pow_pos (x k : Nat) : decide ((x &&& 2 ^ k) > 0) = x.testBit k := by
  cases h : x.testBit k
  · have h0 : x &&& 2 ^ k = 0 := by
      apply Nat.eq_of_testBit_eq
      intro i
      rw [Nat.testBit_and, Nat.testBit_two_pow, Nat.zero_testBit]
      by_cases hk : k = i
      · subst hk; simp [h]
      · simp [hk]
    simp [h0]
  · have h1 : (x &&& 2 ^ k).testBit k = true := by
      rw [Nat.testBit_and, Nat.testBit_two_pow_self, h]; rfl
    have h2 := Nat.testBit_implies_ge h1
    have h3 : 0 < 2 ^ k := Nat.pow_pos (by norm_num)
    simp only [gt_iff_lt, decide_eq_true_eq]
    omega

theorem testBit_or_two_pow (x k j : Nat) :
    (x ||| 2 ^ k).testBit j = (x.testBit j || decide (k = j)) := by
  rw [Nat.testBit_or, Nat.testBit_two_pow]

/-! ## `Set` and `Test` -/

namespace BitSet

theorem Test_eq (b : BitSet) (j : Nat) :
    b.Test j = (b.bytes[j / 8]?).map (fun x => x.testBit (j % 8)) := by
  unfold Test
  simp only [byteSize, bitmask_eq]
  cases b.bytes[j / 8]? with
  | none => rfl
  | some x => simp [and_two_pow_pos]

theorem Set_eq (b : BitSet) (i : Nat) :
    b.Set i = (b.bytes[i / 8]?).map
      (fun x => { b with bytes := b.bytes.set (i / 8) (x ||| 2 ^ (i % 8)) }) := by
  unfold Set
  simp only [byteSize, bitmask_eq]
  cases b.bytes[i / 8]? <;> rfl

/-- A `Set` inside the buffer does not panic. -/
theorem Set_isSome (b : BitSet) (i : Nat) (h : i < 8 * b.BytesCount) :
    ∃ b', b.Set i = some b' := by
  have hi : i / 8 < b.bytes.length := by unfold BytesCount at h; omega
  rw [Set_eq, List.getElem?_eq_getElem hi]
  exact ⟨_, rfl⟩

/-- A `Set` keeps the buffer length and the bit count. -/
theorem Set_frame (b b' : BitSet) (i : Nat) (h : b.Set i = some b') :
    b'.bytes.length = b.bytes.length ∧ b'.bitsCount = b.bitsCount := by
  rw [Set_eq] at h
  cases hx : b.bytes[i / 8]? with
  | none => rw [hx] at h; cases h
  | some x =>
    rw [hx] at h
    cases h
    simp

theorem div_mod_eight_inj (i j : Nat) (h1 : i / 8 = j / 8) (h2 : i % 8 = j % 8) : i = j := by
  omega

/-- After `Set i`, bit `j` reads as before, or as one when `j = i`. -/
theorem Test_Set (b b' : BitSet) (i j : Nat) (h : b.Set i = some b') :
    b'.Test j = (b.Test j).map (fun t => t || decide (i = j)) := by
  rw [Set_eq] at h
  cases hx : b.bytes[i / 8]? with
  | none => rw [hx] at h; cases h
  | some x =>
    rw [hx] at h
    cases h
    rw [Test_eq, Test_eq]
    by_cases hij : i / 8 = j / 8
    · have hlt : i / 8 < b.bytes.length := by
        rcases List.getElem?_eq_some.mp hx with ⟨hl, _⟩
        exact hl
      rw [← hij, hx]
      simp only [List.getElem?_set_self hlt, Option.map_some', testBit_or_two_pow]
      congr 2
      by_cases hm : i % 8 = j % 8
      · have : i = j := div_mod_eight_inj i j hij hm
        simp [hm, this]
      · have : i ≠ j := fun e => hm (by rw [e])
        simp [hm, this]
    · have hne : i ≠ j := fun e => hij (by rw [e])
      simp only [List.getElem?_set_ne hij, hne, decide_False, Bool.or_false]
      cases b.bytes[j / 8]? <;> rfl

end BitSet

/-! ## `OnesCount` -/

theorem OnesCount8_le (x : Nat) : OnesCount8 x ≤ 8 := by
  unfold OnesCount8
  exact (List.length_filter_le _ _).trans (by simp)

theorem onesIn_cons (x : Nat) (xs : List Nat) : onesIn (x :: xs) = OnesCount8 x + onesIn xs := by
  unfold onesIn OnesCount8
  have hlen : 8 * (x :: xs).length = 8 + 8 * xs.length := by simp; omega
  rw [hlen, List.range_add, List.filter_append, List.length_append, List.filter_map,
    List.length_map]
  congr 2
  · apply List.filter_congr
    intro i hi
    have hi8 : i < 8 := List.mem_range.mp hi
    have h0 : i / 8 = 0 := by omega
    have h1 : i % 8 = i := by omega
    simp [h0, h1]
  · apply List.filter_congr
    intro i _
    have h0 : (8 + i) / 8 = i / 8 + 1 := by omega
    have h1 : (8 + i) % 8 = i % 8 := by omega
    simp [h0, h1]

theorem onesIn_eq_sum (bytes : List Nat) : onesIn bytes = (bytes.map OnesCount8).sum := by
  induction bytes with
  | nil => rfl
  | cons x xs ih => rw [onesIn_cons, ih]; rfl

theorem foldl_count_eq (bytes : List Nat) (c : Nat) (h : c + 8 * bytes.length < 2 ^ 64) :
    bytes.foldl (fun count bb => (count + OnesCount8 bb % 2 ^ 64) % 2 ^ 64) c
      = c + (bytes.map OnesCount8).sum := by
  induction bytes generalizing c with
  | nil => simp
  | cons x xs ih =>
    have hx := OnesCount8_le x
    have hl : (x :: xs).length = xs.length + 1 := rfl
    rw [hl] at h
    have h1 : OnesCount8 x % 2 ^ 64 = OnesCount8 x := Nat.mod_eq_of_lt (by omega)
    have h2 : (c + OnesCount8 x) % 2 ^ 64 = c + OnesCount8 x := Nat.mod_eq_of_lt (by omega)
    rw [List.foldl_cons, h1, h2, ih _ (by omega), List.map_cons, List.sum_cons]
    omega

namespace BitSet

/-- The counter of `OnesCount` does not wrap on a buffer of fewer than `2 ^ 61` bytes. -/
theorem OnesCount_eq_sum (b : BitSet) (h : 8 * b.BytesCount < 2 ^ 64) :
    b.OnesCount = (b.bytes.map OnesCount8).sum := by
  unfold OnesCount Bytes
  unfold BytesCount at h
  rw [foldl_count_eq b.bytes 0 (by omega)]
  omega

theorem filter_Test_eq (b : BitSet) :
    ((List.range (8 * b.BytesCount)).filter (fun i => b.Test i == some true)).length
      = onesIn b.bytes := by
  unfold onesIn BytesCount
  congr 1
  apply List.filter_congr
  intro i _
  rw [Test_eq]

end BitSet

/-! ## Construction -/

theorem New_ok (n : Nat) (h : 1 ≤ n) (hk : bytesCount n ≤ maxAlloc) :
    New n = some (Except.ok ⟨List.replicate (bytesCount n) 0, n⟩) := by
  unfold New make
  rw [if_neg (by omega), if_pos hk]

theorem New_panic (n : Nat) (h : 1 ≤ n) (hk : maxAlloc < bytesCount n) : New n = none := by
  unfold New make
  rw [if_neg (by omega), if_neg (by omega)]

theorem New_zero : New 0 = some (Except.error "bitsCount must be a postive number") := rfl

theorem foldl_count_zeros (k : Nat) :
    (List.replicate k 0).foldl (fun count bb => (count + OnesCount8 bb % 2 ^ 64) % 2 ^ 64) 0 = 0 := by
  induction k with
  | zero => rfl
  | succ k ih =>
    rw [List.replicate_succ, List.foldl_cons]
    have h0 : (0 + OnesCount8 0 % 2 ^ 64) % 2 ^ 64 = 0 := by decide
    rw [h0, ih]

theorem copy_fresh (bytes : List Nat) : copy (List.replicate bytes.length 0) bytes = bytes := by
  unfold copy
  simp

theorem NewFromBytes_eq (k : Nat) (bytes : List Nat) : NewFromBytes k bytes = ⟨bytes, k⟩ := by
  unfold NewFromBytes
  simp only [copy_fresh]

theorem SetAll_spec (is : List Nat) (b : BitSet) (h : ∀ i ∈ is, i < 8 * b.BytesCount) :
    ∃ b', SetAll b is = some b' ∧ b'.bytes.length = b.bytes.length ∧
      b'.bitsCount = b.bitsCount ∧
      ∀ j, b'.Test j = (b.Test j).map (fun t => t || decide (j ∈ is)) := by
  induction is generalizing b with
  | nil =>
    refine ⟨b, rfl, rfl, rfl, ?_⟩
    intro j
    cases b.Test j <;> simp
  | cons i is ih =>
    obtain ⟨b1, hb1⟩ := BitSet.Set_isSome b i (h i (List.mem_cons_self _ _))
    obtain ⟨hlen, hbits⟩ := BitSet.Set_frame b b1 i hb1
    have hin : ∀ k ∈ is, k < 8 * b1.BytesCount := by
      intro k hk
      have := h k (List.mem_cons_of_mem _ hk)
      unfold BitSet.BytesCount at this ⊢
      rw [hlen]
      exact this
    obtain ⟨b2, h2, hlen2, hbits2, htest⟩ := ih b1 hin
    refine ⟨b2, ?_, hlen2.trans hlen, hbits2.trans hbits, ?_⟩
    · unfold SetAll at h2 ⊢
      rw [List.foldlM_cons, hb1]
      exact h2
    · intro j
      rw [htest j, BitSet.Test_Set b b1 i j hb1]
      cases b.Test j with
      | none => rfl
      | some t =>
        simp only [Option.map_some', List.mem_cons, Option.some.injEq]
        by_cases hji : j = i
        · subst hji; simp
        · have hij : ¬ i = j := fun e => hji e.symm
          simp [hji, hij]

/-! ## Effect of `Set` on the population count -/

theorem length_filter_or_eq (p : Nat → Bool) (k n : Nat) (hk : k < n) :
    ((List.range n).filter (fun j => p j || decide (k = j))).length
      = ((List.range n).filter p).length + (if p k = true then 0 else 1) := by
  induction n with
  | zero => omega
  | succ n ih =>
    rw [List.range_succ, List.filter_append, List.filter_append, List.length_append,
      List.length_append]
    by_cases hkn : k < n
    · have hne : ¬ k = n := by omega
      rw [ih hkn]
      have hlast : List.filter (fun j => p j || decide (k = j)) [n] = List.filter p [n] := by
        simp [List.filter_cons, hne]
      rw [hlast]
      omega
    · have hkeq : k = n := by omega
      subst hkeq
      have hfirst : List.filter (fun j => p j || decide (k = j)) (List.range k)
          = List.filter p (List.range k) := by
        apply List.filter_congr
        intro j hj
        have : ¬ k = j := by have := List.mem_range.mp hj; omega
        simp [this]
      rw [hfirst]
      cases hp : p k <;> simp [List.filter_cons, hp]

theorem OnesCount8_or_two_pow (x k : Nat) (hk : k < 8) :
    OnesCount8 (x ||| 2 ^ k) = OnesCount8 x + (if x.testBit k = true then 0 else 1) := by
  unfold OnesCount8
  have h := length_filter_or_eq (fun j => x.testBit j) k 8 hk
  rw [← h]
  congr 1
  apply List.filter_congr
  intro j _
  rw [testBit_or_two_pow]

theorem sum_map_set (f : Nat → Nat) (l : List Nat) (i x y d : Nat)
    (hx : l[i]? = some x) (hd : f y = f x + d) :
    ((l.set i y).map f).sum = (l.map f).sum + d := by
  induction l generalizing i with
  | nil => simp at hx
  | cons a as ih =>
    cases i with
    | zero =>
      simp only [List.getElem?_cons_zero, Option.some.injEq] at hx
      subst hx
      simp only [List.set_cons_zero, List.map_cons, List.sum_cons, hd]
      omega
    | succ i =>
      simp only [List.getElem?_cons_succ] at hx
      simp only [List.set_cons_succ, List.map_cons, List.sum_cons, ih i hx]
      omega

namespace BitSet

/-- A `Set` raises the sum of the byte population counts by one when the bit
was zero and keeps it when the bit was one. -/
theorem sum_Set (b b' : BitSet) (i : Nat) (h : b.Set i = some b') :
    ∃ t, b.Test i = some t ∧
      (b'.bytes.map OnesCount8).sum
        = (b.bytes.map OnesCount8).sum + (if t = true then 0 else 1) := by
  rw [Set_eq] at h
  rw [Test_eq]
  cases hx : b.bytes[i / 8]? with
  | none => rw [hx] at h; cases h
  | some x =>
    rw [hx] at h
    cases h
    refine ⟨x.testBit (i % 8), rfl, ?_⟩
    exact sum_map_set OnesCount8 b.bytes (i / 8) x _ _ hx
      (OnesCount8_or_two_pow x (i % 8) (Nat.mod_lt _ (by norm_num)))

end BitSet

/-! ## The loops of `Union` and `Intersect` -/

namespace BitSet

theorem rangeLoop_spec (op : Nat → Nat → Nat) (other : List Nat) (n : Nat) :
    ∀ (i : Nat) (bytes : List Nat), i + n = bytes.length → bytes.length ≤ other.length →
      ∃ r, rangeLoop op other n i bytes = some r ∧
        ∀ k, r[k]? = if k < i then bytes[k]? else (List.zipWith op bytes other)[k]? := by
  induction n with
  | zero =>
    intro i bytes hi _
    refine ⟨bytes, rfl, ?_⟩
    intro k
    by_cases hk : k < i
    · rw [if_pos hk]
    · rw [if_neg hk, List.getElem?_eq_none (by omega), List.getElem?_eq_none]
      rw [List.length_zipWith]
      omega
  | succ n ih =>
    intro i bytes hi hle
    have hib : i < bytes.length := by omega
    have hio : i < other.length := by omega
    have hx : bytes[i]? = some bytes[i] := List.getElem?_eq_getElem hib
    have hy : other[i]? = some other[i] := List.getElem?_eq_getElem hio
    obtain ⟨r, hr, hk⟩ := ih (i + 1) (bytes.set i (op bytes[i] other[i]))
      (by rw [List.length_set]; omega) (by rw [List.length_set]; exact hle)
    refine ⟨r, ?_, ?_⟩
    · rw [rangeLoop, hx, hy]
      exact hr
    · intro k
      rw [hk k]
      by_cases h1 : k < i
      · rw [if_pos (by omega), if_pos h1, List.getElem?_set_ne (by omega)]
      · rw [if_neg h1]
        by_cases h2 : k = i
        · subst h2
          rw [if_pos (by omega), List.getElem?_set_self hib, List.getElem?_zipWith, hx, hy]
        · rw [if_neg (by omega), List.getElem?_zipWith, List.getElem?_zipWith,
            List.getElem?_set_ne (fun e => h2 e.symm)]

/-- On buffers of equal length the loop ends without a panic, having combined
the buffers byte by byte. -/
theorem rangeLoop_eq_zipWith (op : Nat → Nat → Nat) (bytes other : List Nat)
    (h : bytes.length = other.length) :
    rangeLoop op other bytes.length 0 bytes = some (List.zipWith op bytes other) := by
  obtain ⟨r, hr, hk⟩ := rangeLoop_spec op other bytes.length 0 bytes (by omega) (by omega)
  rw [hr]
  congr 1
  apply List.ext_getElem?
  intro k
  rw [hk k, if_neg (by omega)]

theorem Union_eq (b other : BitSet) (h : b.BytesCount = other.BytesCount) :
    b.Union other
      = some ({ b with bytes := List.zipWith (fun x y => x ||| y) b.bytes other.bytes }, none) := by
  unfold Union
  rw [if_neg (by simpa using h)]
  unfold BytesCount at h
  rw [rangeLoop_eq_zipWith _ _ _ h]

theorem Intersect_eq (b other : BitSet) (h : b.BytesCount = other.BytesCount) :
    b.Intersect other
      = some ({ b with bytes := List.zipWith (fun x y => x &&& y) b.bytes other.bytes }, none) := by
  unfold Intersect
  rw [if_neg (by simpa using h)]
  unfold BytesCount at h
  rw [rangeLoop_eq_zipWith _ _ _ h]

end BitSet

/-! ## Frame properties on the heap -/

theorem set_same (l : List (List Nat)) (i : Nat) (x : List Nat) (h : l[i]? = some x) :
    l.set i x = l := by
  apply List.ext_getElem?
  intro k
  by_cases hk : i = k
  · subst hk
    have hl : i < l.length := (List.getElem?_eq_some.mp h).1
    rw [List.getElem?_set_self hl, h]
  · rw [List.getElem?_set_ne hk]

namespace Heap

theorem load_eq_some (h : Heap) (p : Ref) (b : BitSet) :
    load h p = some b ↔ h[p.addr]? = some b.bytes ∧ b.bitsCount = p.bitsCount := by
  unfold load
  cases hx : h[p.addr]? with
  | none => simp
  | some bytes =>
    cases b with
    | mk bs k =>
      simp only [Option.some.injEq, BitSet.mk.injEq]
      constructor
      · rintro ⟨h1, h2⟩; exact ⟨h1, h2.symm⟩
      · rintro ⟨h1, h2⟩; exact ⟨h1, h2.symm⟩

theorem load_congr (h h' : Heap) (p : Ref) (e : h'[p.addr]? = h[p.addr]?) :
    load h' p = load h p := by
  unfold load
  rw [e]

theorem Set_of_load (h : Heap) (p : Ref) (i : Nat) (b : BitSet) (hl : load h p = some b) :
    Set h p i = (b.Set i).map (store h p) := by
  unfold Set
  simp only [hl]
  cases b.Set i <;> rfl

theorem Union_of_load (h : Heap) (p q : Ref) (a b : BitSet) (hp : load h p = some a)
    (hq : load h q = some b) :
    Union h p q = (a.Union b).map (fun r => (store h p r.1, r.2)) := by
  unfold Union
  simp only [hp, hq]
  cases a.Union b <;> rfl

theorem Intersect_of_load (h : Heap) (p q : Ref) (a b : BitSet) (hp : load h p = some a)
    (hq : load h q = some b) :
    Intersect h p q = (a.Intersect b).map (fun r => (store h p r.1, r.2)) := by
  unfold Intersect
  simp only [hp, hq]
  cases a.Intersect b <;> rfl

/-- A call that returns has written a buffer through its receiver, and nothing else. -/
theorem step_eq_store (h h' : Heap) (op : Op) (hs : step h op = some h') :
    ∃ b', h' = store h op.receiver b' := by
  cases op with
  | set p i =>
    simp only [step] at hs
    cases hl : load h p with
    | none => simp [Set, hl] at hs
    | some b =>
      rw [Set_of_load h p i b hl] at hs
      cases hb : b.Set i with
      | none => rw [hb] at hs; cases hs
      | some b' => rw [hb] at hs; cases hs; exact ⟨b', rfl⟩
  | union p q =>
    simp only [step] at hs
    cases hl : load h p with
    | none => simp [Union, hl] at hs
    | some a =>
      cases hq : load h q with
      | none => simp [Union, hl, hq] at hs
      | some b =>
        rw [Union_of_load h p q a b hl hq] at hs
        cases hu : a.Union b with
        | none => rw [hu] at hs; cases hs
        | some r => rw [hu] at hs; cases hs; exact ⟨r.1, rfl⟩
  | intersect p q =>
    simp only [step] at hs
    cases hl : load h p with
    | none => simp [Intersect, hl] at hs
    | some a =>
      cases hq : load h q with
      | none => simp [Intersect, hl, hq] at hs
      | some b =>
        rw [Intersect_of_load h p q a b hl hq] at hs
        cases hu : a.Intersect b with
        | none => rw [hu] at hs; cases hs
        | some r => rw [hu] at hs; cases hs; exact ⟨r.1, rfl⟩

/-- A call writes only to the backing array of its receiver. -/
theorem step_frame (h h' : Heap) (op : Op) (a : Nat) (hs : step h op = some h')
    (ha : op.receiver.addr ≠ a) : h'[a]? = h[a]? := by
  obtain ⟨b', rfl⟩ := step_eq_store h h' op hs
  exact List.getElem?_set_ne ha

/-- A sequence of calls writes only to the backing arrays of its receivers. -/
theorem run_frame (ops : List Op) (h h' : Heap) (a : Nat) (hr : run h ops = some h')
    (ha : ∀ op ∈ ops, op.receiver.addr ≠ a) : h'[a]? = h[a]? := by
  induction ops generalizing h with
  | nil =>
    simp only [run, List.foldlM_nil] at hr
    cases hr
    rfl
  | cons op ops ih =>
    simp only [run, List.foldlM_cons] at hr
    cases hs : step h op with
    | none => rw [hs] at hr; cases hr
    | some h1 =>
      rw [hs] at hr
      rw [ih h1 hr (fun o ho => ha o (List.mem_cons_of_mem _ ho))]
      exact step_frame h h1 op a hs (ha op (List.mem_cons_self _ _))

end Heap

/-! ## Sizes of a new BitSet -/

theorem bytesCount_two_pow_53_succ : bytesCount 9007199254740993 = 1125899906842624 := by
  rw [bytesCount_eq]
  decide

theorem bytesCount_max_uint64 : bytesCount 18446744073709551615 = 2305843009213693952 := by
  rw [bytesCount_eq]
  decide

theorem New_ok_inv (n : Nat) (b : BitSet) (h : New n = some (Except.ok b)) :
    1 ≤ n ∧ bytesCount n ≤ maxAlloc ∧ b = ⟨List.replicate (bytesCount n) 0, n⟩ := by
  by_cases hn : 1 ≤ n
  · by_cases hk : bytesCount n ≤ maxAlloc
    · rw [New_ok n hn hk] at h
      cases h
      exact ⟨hn, hk, rfl⟩
    · rw [New_panic n hn (by omega)] at h
      cases h
  · have h0 : n = 0 := by omega
    subst h0
    rw [New_zero] at h
    cases h

/-- What `New` returns has the requested bit count and the exact ceiling of
`n / 8` bytes. -/
theorem New_sizes_of_ok (n : Nat) (b : BitSet) (h : New n = some (Except.ok b)) :
    b.BitsCount = n ∧ b.BytesCount = (n + 7) / 8 := by
  obtain ⟨_, hk, hb⟩ := New_ok_inv n b h
  subst hb
  refine ⟨rfl, ?_⟩
  show (List.replicate (bytesCount n) 0).length = (n + 7) / 8
  rw [List.length_replicate, (bytesCount_le_maxAlloc n hk).2]

/-- C1, as stated, fails at `n = 2 ^ 53 + 1`: `bytesCount` asks `make` for `2 ^ 50`
bytes, more than `make` accepts, so `New(n)` panics and returns no BitSet. -/
theorem New_panics_at_two_pow_53_succ :
    1 ≤ 9007199254740993 ∧ bytesCount 9007199254740993 = 1125899906842624 ∧
      New 9007199254740993 = none ∧
      ¬ ∃ b, New 9007199254740993 = some (Except.ok b) := by
  have hp : New 9007199254740993 = none :=
    New_panic _ (by decide) (by rw [bytesCount_two_pow_53_succ]; decide)
  refine ⟨by decide, bytesCount_two_pow_53_succ, hp, ?_⟩
  rintro ⟨b, hb⟩
  rw [hp] at hb
  cases hb

/-- C1, amended: for every `n >= 1` whose byte count `ceil(n / 8)` is at most
`maxAlloc`, `New(n)` succeeds and the returned BitSet has `BitsCount() == n` and
`BytesCount() == (n + 7) / 8`, the exact integer ceiling (the `float64` arithmetic
of `bytesCount` is exact in that range); for every larger `n`, `make` panics and
`New` returns nothing. -/
theorem New_sizes (n : Nat) (h1 : 1 ≤ n) :
    ((n + 7) / 8 ≤ maxAlloc →
        ∃ b, New n = some (Except.ok b) ∧ b.BitsCount = n ∧ b.BytesCount = (n + 7) / 8) ∧
      (maxAlloc < (n + 7) / 8 → New n = none) := by
  constructor
  · intro hk
    have hok := New_ok n h1 ((bytesCount_le_maxAlloc_iff n).mpr hk)
    exact ⟨_, hok, New_sizes_of_ok n _ hok⟩
  · intro hk
    apply New_panic n h1
    have := bytesCount_le_maxAlloc_iff n
    omega

theorem New_sizes_witness :
    1 ≤ 1000 ∧ (1000 + 7) / 8 ≤ maxAlloc ∧
      ∃ b, New 1000 = some (Except.ok b) ∧ b.BitsCount = 1000 ∧ b.BytesCount = 125 :=
  ⟨by decide, by decide, (New_sizes 1000 (by decide)).1 (by decide)⟩

/-- C2, as stated, fails at `n = 2 ^ 64 - 1`: `bytesCount` asks `make` for `2 ^ 61`
bytes, `make` panics, and `New(n)` returns neither a BitSet nor an error although
`n >= 1`. -/
theorem New_panics_at_max_uint64 :
    1 ≤ 18446744073709551615 ∧ New 18446744073709551615 = none ∧
      (¬ ∃ b, New 18446744073709551615 = some (Except.ok b)) ∧
      (¬ ∃ msg, New 18446744073709551615 = some (Except.error msg)) := by
  have hp : New 18446744073709551615 = none :=
    New_panic _ (by decide) (by rw [bytesCount_max_uint64]; decide)
  refine ⟨by decide, hp, ?_, ?_⟩
  · rintro ⟨b, hb⟩
    rw [hp] at hb
    cases hb
  · rintro ⟨msg, hm⟩
    rw [hp] at hm
    cases hm

/-- C2, amended: `New(n)` returns an error, and no BitSet, exactly when `n == 0`;
it returns a BitSet with a nil error exactly when `n >= 1` and the byte count
`ceil(n / 8)` is at most `maxAlloc`; and it panics in `make`, returning neither,
exactly when the byte count exceeds `maxAlloc`. -/
theorem New_error_iff (n : Nat) :
    ((∃ msg, New n = some (Except.error msg)) ↔ n = 0) ∧
      ((∃ b, New n = some (Except.ok b)) ↔ 1 ≤ n ∧ (n + 7) / 8 ≤ maxAlloc) ∧
      (New n = none ↔ maxAlloc < (n + 7) / 8) := by
  have hiff := bytesCount_le_maxAlloc_iff n
  by_cases h : 1 ≤ n
  · by_cases hk : bytesCount n ≤ maxAlloc
    · have hok := New_ok n h hk
      rw [hok]
      refine ⟨?_, ?_, ?_⟩
      · constructor
        · rintro ⟨msg, hm⟩
          cases hm
        · intro h0
          omega
      · exact ⟨fun _ => ⟨h, hiff.mp hk⟩, fun _ => ⟨_, rfl⟩⟩
      · constructor
        · intro e
          cases e
        · intro hgt
          have := hiff.mp hk
          omega
    · have hp := New_panic n h (by omega)
      rw [hp]
      refine ⟨?_, ?_, ?_⟩
      · constructor
        · rintro ⟨msg, hm⟩
          cases hm
        · intro h0
          omega
      · constructor
        · rintro ⟨b, hb⟩
          cases hb
        · rintro ⟨_, hle⟩
          exact absurd (hiff.mpr hle) hk
      · constructor
        · intro _
          by_contra hle
          exact hk (hiff.mpr (by omega))
        · intro _
          rfl
  · have h0 : n = 0 := by omega
    subst h0
    rw [New_zero]
    refine ⟨?_, ?_, ?_⟩
    · exact ⟨fun _ => rfl, fun _ => ⟨_, rfl⟩⟩
    · constructor
      · rintro ⟨b, hb⟩
        cases hb
      · rintro ⟨h1, _⟩
        omega
    · constructor
      · intro e
        cases e
      · intro hgt
        unfold maxAlloc at hgt
        omega

theorem Test_zeros (k n i : Nat) (hi : i < 8 * k) :
    BitSet.Test ⟨List.replicate k 0, n⟩ i = some false := by
  have hlt : i / 8 < k := by omega
  rw [BitSet.Test_eq]
  simp only [List.getElem?_replicate_of_lt hlt, Option.map_some', Nat.zero_testBit]

theorem OnesCount_zeros (k n : Nat) : BitSet.OnesCount ⟨List.replicate k 0, n⟩ = 0 :=
  foldl_count_zeros k

/-- C3: for every `n >= 1` the BitSet returned by `New(n)` is empty: every byte of
its buffer is `0`, `Test(i)` is false for every `i < 8 * BytesCount()`, and
`OnesCount() == 0`. `New(n)` returns a BitSet whenever `make` accepts the byte
count. -/
theorem New_empty (n : Nat) (h : 1 ≤ n) :
    ((n + 7) / 8 ≤ maxAlloc → ∃ b, New n = some (Except.ok b)) ∧
      ∀ b, New n = some (Except.ok b) →
        (∀ x ∈ b.Bytes, x = 0) ∧
        (∀ i, i < 8 * b.BytesCount → b.Test i = some false) ∧ b.OnesCount = 0 := by
  constructor
  · intro hk
    exact ⟨_, New_ok n h ((bytesCount_le_maxAlloc_iff n).mpr hk)⟩
  · intro b hb
    obtain ⟨_, _, hb'⟩ := New_ok_inv n b hb
    subst hb'
    refine ⟨?_, ?_, OnesCount_zeros _ _⟩
    · intro x hx
      exact List.eq_of_mem_replicate hx
    · intro i hi
      apply Test_zeros
      simpa [BitSet.BytesCount] using hi

theorem New_empty_witness :
    1 ≤ 9 ∧ (9 + 7) / 8 ≤ maxAlloc ∧ (∃ b, New 9 = some (Except.ok b)) ∧
      ∀ b, New 9 = some (Except.ok b) →
        (∀ x ∈ b.Bytes, x = 0) ∧
        (∀ i, i < 8 * b.BytesCount → b.Test i = some false) ∧ b.OnesCount = 0 :=
  ⟨by decide, by decide, (New_empty 9 (by decide)).1 (by decide), (New_empty 9 (by decide)).2⟩

theorem New_20 : New 20 = some (Except.ok ⟨[0, 0, 0], 20⟩) := by
  have hc : bytesCount 20 = 3 := by rw [bytesCount_eq]; decide
  rw [New_ok 20 (by decide) (by rw [hc]; decide), hc]
  rfl

/-- C4: for every `n >= 1` and every `i` with `0 <= i < n`, on the BitSet `b`
returned by `New(n)`, `Set(i)` completes without an out-of-range access (the byte
index `i / 8` is inside the buffer that `New` allocated), and afterwards
`b.Test(i) == true` and `b.OnesCount() == 1`. `New(n)` returns a BitSet whenever
`make` accepts the byte count. -/
theorem New_Set_Test (n i : Nat) (hi : i < n) :
    ((n + 7) / 8 ≤ maxAlloc → ∃ b, New n = some (Except.ok b)) ∧
      ∀ b, New n = some (Except.ok b) →
        i / 8 < b.BytesCount ∧
        ∃ b', b.Set i = some b' ∧ b'.Test i = some true ∧ b'.OnesCount = 1 := by
  constructor
  · intro hk
    exact ⟨_, New_ok n (by omega) ((bytesCount_le_maxAlloc_iff n).mpr hk)⟩
  · intro b hb
    obtain ⟨_, hk, hb'⟩ := New_ok_inv n b hb
    subst hb'
    obtain ⟨hn, hcount⟩ := bytesCount_le_maxAlloc n hk
    have hin : i < 8 * bytesCount n := by rw [hcount]; omega
    have hin' : i < 8 * BitSet.BytesCount ⟨List.replicate (bytesCount n) 0, n⟩ := by
      simpa [BitSet.BytesCount] using hin
    obtain ⟨b', hset⟩ := BitSet.Set_isSome ⟨List.replicate (bytesCount n) 0, n⟩ i hin'
    refine ⟨by omega, b', hset, ?_, ?_⟩
    · rw [BitSet.Test_Set _ b' i i hset, Test_zeros _ _ _ hin]
      simp
    · obtain ⟨t, ht, hsum⟩ := BitSet.sum_Set _ b' i hset
      rw [Test_zeros _ _ _ hin] at ht
      cases ht
      have hlen := (BitSet.Set_frame _ b' i hset).1
      have hsmall : 8 * BitSet.BytesCount ⟨List.replicate (bytesCount n) 0, n⟩ < 2 ^ 64 := by
        simp only [BitSet.BytesCount, List.length_replicate, hcount]
        omega
      have hsmall' : 8 * b'.BytesCount < 2 ^ 64 := by
        unfold BitSet.BytesCount at hsmall ⊢
        rw [hlen]
        exact hsmall
      rw [BitSet.OnesCount_eq_sum b' hsmall', hsum, ← BitSet.OnesCount_eq_sum _ hsmall,
        OnesCount_zeros]
      rfl

theorem New_Set_Test_witness :
    19 < 20 ∧ New 20 = some (Except.ok ⟨[0, 0, 0], 20⟩) ∧
      19 / 8 < BitSet.BytesCount ⟨[0, 0, 0], 20⟩ ∧
      ∃ b', BitSet.Set ⟨[0, 0, 0], 20⟩ 19 = some b' ∧ b'.Test 19 = some true ∧
        b'.OnesCount = 1 :=
  ⟨by decide, New_20, (New_Set_Test 20 19 (by decide)).2 ⟨[0, 0, 0], 20⟩ New_20⟩

/-! ## `Test` against a set of indices -/

/-- C5: `Test` agrees with a reference set model. For the BitSet `b0` returned by
`New(n)` and indices `i_1..i_k`, each below `8 * BytesCount()`, the calls
`Set(i_1)`, ..., `Set(i_k)` run without a panic and afterwards, for every
`j < 8 * BytesCount()`, `Test(j)` is true if and only if `j` is one of `i_1..i_k`. -/
theorem Test_agrees_with_set_model (n : Nat) (is : List Nat) (b0 : BitSet)
    (h0 : New n = some (Except.ok b0)) (hin : ∀ i ∈ is, i < 8 * b0.BytesCount) :
    ∃ b, SetAll b0 is = some b ∧ b.BytesCount = b0.BytesCount ∧
      b.BitsCount = b0.BitsCount ∧
      ∀ j, j < 8 * b0.BytesCount → b.Test j = some (decide (j ∈ is)) := by
  obtain ⟨_, _, hb0⟩ := New_ok_inv n b0 h0
  subst hb0
  obtain ⟨b, hb, hlen, hbits, htest⟩ := SetAll_spec is _ hin
  refine ⟨b, hb, hlen, hbits, ?_⟩
  intro j hj
  have hj' : j < 8 * bytesCount n := by simpa [BitSet.BytesCount] using hj
  rw [htest j, Test_zeros _ _ _ hj']
  simp

theorem Test_agrees_with_set_model_witness :
    ∃ b, SetAll ⟨[0, 0, 0], 20⟩ [5, 6, 5] = some b ∧
      b.BytesCount = BitSet.BytesCount ⟨[0, 0, 0], 20⟩ ∧
      b.BitsCount = BitSet.BitsCount ⟨[0, 0, 0], 20⟩ ∧
      ∀ j, j < 8 * BitSet.BytesCount ⟨[0, 0, 0], 20⟩ → b.Test j = some (decide (j ∈ [5, 6, 5])) :=
  Test_agrees_with_set_model 20 [5, 6, 5] ⟨[0, 0, 0], 20⟩ New_20 (by decide)

/-! ## Idempotence of `Set` -/

/-- C6: `Set` is idempotent. For every BitSet `b` and every index
`i < 8 * b.BytesCount()`, `Set(i)` runs without a panic, and a second `Set(i)`
leaves the state (buffer bytes and bit count) exactly as the first one left it. -/
theorem Set_idempotent (b : BitSet) (i : Nat) (h : i < 8 * b.BytesCount) :
    ∃ b1, b.Set i = some b1 ∧ b1.Set i = some b1 := by
  have hi : i / 8 < b.bytes.length := by unfold BitSet.BytesCount at h; omega
  refine ⟨{ b with bytes := b.bytes.set (i / 8) (b.bytes[i / 8] ||| 2 ^ (i % 8)) }, ?_, ?_⟩
  · rw [BitSet.Set_eq, List.getElem?_eq_getElem hi]
    rfl
  · rw [BitSet.Set_eq]
    simp only [List.getElem?_set_self hi, Option.map_some', List.set_set, Nat.lor_assoc,
      Nat.or_self]

theorem Set_idempotent_witness :
    10 < 8 * BitSet.BytesCount ⟨[1, 0], 9⟩ ∧
      ∃ b1, BitSet.Set ⟨[1, 0], 9⟩ 10 = some b1 ∧ b1.Set 10 = some b1 :=
  ⟨by decide, Set_idempotent ⟨[1, 0], 9⟩ 10 (by decide)⟩

/-! ## `OnesCount` counts the set bits -/

/-- C7: `OnesCount` counts every set bit of the whole buffer, pad bits included.
For every BitSet `b` (whatever its `bitsCount`; the buffer has fewer than `2 ^ 61`
bytes, as every Go slice has, so that the `uint64` counter cannot wrap),
`b.OnesCount()` is the number of indices `i` in `[0, 8 * b.BytesCount())` for
which `b.Test(i)` is true, which is the sum over the buffer of the population
count of each byte. `Set(i)` on a bit that tests false raises `OnesCount` by
exactly `1` and `Set(i)` on a bit that tests true leaves it unchanged. -/
theorem OnesCount_counts_set_bits (b : BitSet) (h : 8 * b.BytesCount < 2 ^ 64) :
    b.OnesCount
        = ((List.range (8 * b.BytesCount)).filter (fun i => b.Test i == some true)).length ∧
      b.OnesCount = (b.Bytes.map OnesCount8).sum ∧
      ∀ i b', b.Set i = some b' →
        (b.Test i = some false → b'.OnesCount = b.OnesCount + 1) ∧
        (b.Test i = some true → b'.OnesCount = b.OnesCount) := by
  have hsum := BitSet.OnesCount_eq_sum b h
  refine ⟨?_, hsum, ?_⟩
  · rw [BitSet.filter_Test_eq, onesIn_eq_sum, hsum]
  · intro i b' hset
    obtain ⟨t, ht, hs⟩ := BitSet.sum_Set b b' i hset
    have hlen := (BitSet.Set_frame b b' i hset).1
    have h' : 8 * b'.BytesCount < 2 ^ 64 := by
      unfold BitSet.BytesCount at h ⊢
      rw [hlen]
      exact h
    rw [BitSet.OnesCount_eq_sum b' h', hs, ← hsum]
    constructor
    · intro hf
      rw [hf] at ht
      cases ht
      rfl
    · intro hf
      rw [hf] at ht
      cases ht
      rfl

theorem OnesCount_counts_set_bits_witness :
    8 * BitSet.BytesCount ⟨[129, 4], 12⟩ < 2 ^ 64 ∧
      BitSet.OnesCount ⟨[129, 4], 12⟩ = 3 ∧
      BitSet.OnesCount ⟨[129, 4], 12⟩
        = ((List.range (8 * BitSet.BytesCount ⟨[129, 4], 12⟩)).filter
            (fun i => BitSet.Test ⟨[129, 4], 12⟩ i == some true)).length :=
  ⟨by decide, by decide, (OnesCount_counts_set_bits ⟨[129, 4], 12⟩ (by decide)).1⟩

/-! ## Serialization -/

/-- C8: serialization round trip. For every BitSet `b`,
`NewFromBytes(b.BitsCount(), b.Bytes())` has the bytes of `b`, byte for byte, the
`BitsCount()` of `b` and the `BytesCount()` of `b`; and for every `k` and every
byte sequence `bs`, `NewFromBytes(k, bs)` returns (it has no failure path) a
BitSet with `BitsCount() == k` and `Bytes() == bs`. -/
theorem NewFromBytes_round_trip (b : BitSet) (k : Nat) (bs : List Nat) :
    (NewFromBytes b.BitsCount b.Bytes).Bytes = b.Bytes ∧
      (NewFromBytes b.BitsCount b.Bytes).BitsCount = b.BitsCount ∧
      (NewFromBytes b.BitsCount b.Bytes).BytesCount = b.BytesCount ∧
      (NewFromBytes k bs).BitsCount = k ∧ (NewFromBytes k bs).Bytes = bs := by
  rw [NewFromBytes_eq, NewFromBytes_eq]
  exact ⟨rfl, rfl, rfl, rfl, rfl⟩

/-! ## Independence of copies -/

namespace Heap

theorem store_self (h : Heap) (p : Ref) (b : BitSet) (hb : load h p = some b) :
    store h p b = h :=
  set_same h p.addr b.bytes ((load_eq_some h p b).mp hb).1

/-- The buffer that `NewFromBytes` returns is a new array holding the bytes of the
source, and the source array stays as it was. -/
theorem NewFromBytes_fresh (h : Heap) (k src : Nat) (bytes : List Nat)
    (hs : h[src]? = some bytes) :
    NewFromBytes h k src = some (h ++ [bytes], ⟨h.length, k⟩) ∧
      src ≠ h.length ∧
      (h ++ [bytes])[h.length]? = some bytes ∧
      ∀ a, a < h.length → (h ++ [bytes])[a]? = h[a]? := by
  have hlt : src < h.length := (List.getElem?_eq_some.mp hs).1
  refine ⟨?_, by omega, List.getElem?_concat_length h bytes, ?_⟩
  · unfold NewFromBytes
    simp only [hs, NewFromBytes_eq, alloc]
  · intro a ha
    exact List.getElem?_append_left ha

end Heap

/-- C9: `Copy` yields an equal, independent BitSet. For every BitSet `b` behind a
pointer `p`, `c = b.Copy()` has the `BitsCount` and the buffer bytes of `b`, and
`b` is as before; any later sequence of `Set`, `Union` and `Intersect` calls on
`c` leaves the bytes and bit count of `b` unchanged, and any such sequence on `b`
leaves `c` unchanged. Likewise for the byte sequence at address `src` passed to
`NewFromBytes` and the BitSet `c` it returns: `c` holds the bytes of the source,
the source is not written by `NewFromBytes` nor by later calls on `c`, and
overwriting the source later leaves `c` unchanged. -/
theorem Copy_independent (h : Heap) (p : Ref) (b : BitSet) (hb : h.load p = some b)
    (k src : Nat) (bytes : List Nat) (hsrc : h[src]? = some bytes) :
    (∃ h1 c, Heap.Copy h p = some (h1, c) ∧
      h1.load c = some b ∧ h1.load p = some b ∧
      (∀ ops h2, (∀ op ∈ ops, Heap.Op.receiver op = c) → Heap.run h1 ops = some h2 →
        h2.load p = some b) ∧
      (∀ ops h2, (∀ op ∈ ops, Heap.Op.receiver op = p) → Heap.run h1 ops = some h2 →
        h2.load c = some b)) ∧
    (∃ h1 c, Heap.NewFromBytes h k src = some (h1, c) ∧
      h1.load c = some ⟨bytes, k⟩ ∧ h1[src]? = some bytes ∧
      (∀ ops h2, (∀ op ∈ ops, Heap.Op.receiver op = c) → Heap.run h1 ops = some h2 →
        h2[src]? = some bytes) ∧
      (∀ bytes', Heap.load (h1.set src bytes') c = some ⟨bytes, k⟩)) := by
  constructor
  · obtain ⟨hbytes, hbits⟩ := (Heap.load_eq_some h p b).mp hb
    obtain ⟨hnew, hne, hlast, hold⟩ := Heap.NewFromBytes_fresh h p.bitsCount p.addr b.bytes hbytes
    have hlt : p.addr < h.length := (List.getElem?_eq_some.mp hbytes).1
    have hc : Heap.load (h ++ [b.bytes]) ⟨h.length, p.bitsCount⟩ = some b :=
      (Heap.load_eq_some _ _ b).mpr ⟨hlast, hbits⟩
    have hp : Heap.load (h ++ [b.bytes]) p = some b := by
      rw [Heap.load_congr h _ p (hold p.addr hlt)]
      exact hb
    refine ⟨h ++ [b.bytes], ⟨h.length, p.bitsCount⟩, hnew, hc, hp, ?_, ?_⟩
    · intro ops h2 hops hrun
      rw [Heap.load_congr _ h2 p (Heap.run_frame ops _ h2 p.addr hrun ?_)]
      · exact hp
      · intro op hop
        rw [hops op hop]
        exact fun e => hne e.symm
    · intro ops h2 hops hrun
      rw [Heap.load_congr (h ++ [b.bytes]) h2 ⟨h.length, p.bitsCount⟩ (Heap.run_frame ops _ h2 h.length hrun ?_)]
      · exact hc
      · intro op hop
        rw [hops op hop]
        exact hne
  · obtain ⟨hnew, hne, hlast, hold⟩ := Heap.NewFromBytes_fresh h k src bytes hsrc
    have hlt : src < h.length := (List.getElem?_eq_some.mp hsrc).1
    refine ⟨h ++ [bytes], ⟨h.length, k⟩, hnew, ?_, ?_, ?_, ?_⟩
    · exact (Heap.load_eq_some _ _ ⟨bytes, k⟩).mpr ⟨hlast, rfl⟩
    · rw [hold src hlt]
      exact hsrc
    · intro ops h2 hops hrun
      rw [Heap.run_frame ops _ h2 src hrun ?_, hold src hlt]
      · exact hsrc
      · intro op hop
        rw [hops op hop]
        exact fun e => hne e.symm
    · intro bytes'
      apply (Heap.load_eq_some _ _ ⟨bytes, k⟩).mpr
      refine ⟨?_, rfl⟩
      show (List.set (h ++ [bytes]) src bytes')[h.length]? = some bytes
      rw [List.getElem?_set_ne hne]
      exact hlast

theorem Copy_independent_witness :
    ∃ h1 c, Heap.Copy [[1, 2]] ⟨0, 16⟩ = some (h1, c) ∧
      Heap.load h1 c = some ⟨[1, 2], 16⟩ ∧ Heap.load h1 ⟨0, 16⟩ = some ⟨[1, 2], 16⟩ ∧
      ∀ ops h2, (∀ op ∈ ops, Heap.Op.receiver op = c) → Heap.run h1 ops = some h2 →
        Heap.load h2 ⟨0, 16⟩ = some ⟨[1, 2], 16⟩ := by
  obtain ⟨h1, c, hcopy, hc, hp, hframe, _⟩ :=
    (Copy_independent [[1, 2]] ⟨0, 16⟩ ⟨[1, 2], 16⟩ rfl 9 0 [1, 2] rfl).1
  exact ⟨h1, c, hcopy, hc, hp, hframe⟩

/-! ## Size check of `Union` and `Intersect` -/

namespace BitSet

theorem Union_mismatch (a b : BitSet) (h : a.BytesCount ≠ b.BytesCount) :
    a.Union b = some (a, some "cannot union BitSets of differing size") := by
  unfold Union
  rw [if_pos h]

theorem Intersect_mismatch (a b : BitSet) (h : a.BytesCount ≠ b.BytesCount) :
    a.Intersect b = some (a, some "cannot intersect BitSets of differing size") := by
  unfold Intersect
  rw [if_pos h]

end BitSet

theorem New_9 : New 9 = some (Except.ok ⟨[0, 0], 9⟩) := by
  have hc : bytesCount 9 = 2 := by rw [bytesCount_eq]; decide
  rw [New_ok 9 (by decide) (by rw [hc]; decide), hc]
  rfl

theorem New_16 : New 16 = some (Except.ok ⟨[0, 0], 16⟩) := by
  have hc : bytesCount 16 = 2 := by rw [bytesCount_eq]; decide
  rw [New_ok 16 (by decide) (by rw [hc]; decide), hc]
  rfl

/-- C10: for BitSets `a` and `b` behind pointers `p` and `q`, `a.Union(b)` and
`a.Intersect(b)` each return (no panic), and return an error if and only if
`a.BytesCount() != b.BytesCount()`; the bit counts are not compared, so `New(9)`
and `New(16)` combine without error. When the error is returned the whole heap,
hence the buffers and bit counts of both `a` and `b`, is exactly as before the
call. -/
theorem Union_Intersect_error_iff (h : Heap) (p q : Ref) (a b : BitSet)
    (ha : h.load p = some a) (hb : h.load q = some b) :
    (∃ h' err, Heap.Union h p q = some (h', err) ∧
      (err ≠ none ↔ a.BytesCount ≠ b.BytesCount) ∧
      (err ≠ none → h' = h ∧ h'.load p = some a ∧ h'.load q = some b)) ∧
    (∃ h' err, Heap.Intersect h p q = some (h', err) ∧
      (err ≠ none ↔ a.BytesCount ≠ b.BytesCount) ∧
      (err ≠ none → h' = h ∧ h'.load p = some a ∧ h'.load q = some b)) ∧
    (∃ x y x1 x2, New 9 = some (Except.ok x) ∧ New 16 = some (Except.ok y) ∧
      x.Union y = some (x1, none) ∧ x.Intersect y = some (x2, none)) := by
  refine ⟨?_, ?_, ?_⟩
  · rw [Heap.Union_of_load h p q a b ha hb]
    by_cases hlen : a.BytesCount = b.BytesCount
    · rw [BitSet.Union_eq a b hlen]
      exact ⟨_, none, rfl, by simp [hlen], fun e => absurd rfl e⟩
    · rw [BitSet.Union_mismatch a b hlen]
      refine ⟨_, _, rfl, by simp [hlen], fun _ => ?_⟩
      have hst : Heap.store h p a = h := Heap.store_self h p a ha
      simp only [hst]
      exact ⟨trivial, ha, hb⟩
  · rw [Heap.Intersect_of_load h p q a b ha hb]
    by_cases hlen : a.BytesCount = b.BytesCount
    · rw [BitSet.Intersect_eq a b hlen]
      exact ⟨_, none, rfl, by simp [hlen], fun e => absurd rfl e⟩
    · rw [BitSet.Intersect_mismatch a b hlen]
      refine ⟨_, _, rfl, by simp [hlen], fun _ => ?_⟩
      have hst : Heap.store h p a = h := Heap.store_self h p a ha
      simp only [hst]
      exact ⟨trivial, ha, hb⟩
  · exact ⟨_, _, _, _, New_9, New_16, BitSet.Union_eq _ _ rfl, BitSet.Intersect_eq _ _ rfl⟩

theorem Union_Intersect_error_iff_witness :
    ∃ h' err, Heap.Union [[1], [2, 3]] ⟨0, 8⟩ ⟨1, 16⟩ = some (h', err) ∧
      (err ≠ none ↔ BitSet.BytesCount ⟨[1], 8⟩ ≠ BitSet.BytesCount ⟨[2, 3], 16⟩) ∧
      (err ≠ none → h' = [[1], [2, 3]] ∧ Heap.load h' ⟨0, 8⟩ = some ⟨[1], 8⟩ ∧
        Heap.load h' ⟨1, 16⟩ = some ⟨[2, 3], 16⟩) :=
  (Union_Intersect_error_iff [[1], [2, 3]] ⟨0, 8⟩ ⟨1, 16⟩ ⟨[1], 8⟩ ⟨[2, 3], 16⟩ rfl rfl).1

/-! ## `Union` and `Intersect`, byte by byte -/

theorem zipWith_idem (op : Nat → Nat → Nat) (hop : ∀ x, op x x = x) (l : List Nat) :
    List.zipWith op l l = l := by
  induction l with
  | nil => rfl
  | cons x xs ih => rw [List.zipWith_cons_cons, hop, ih]

theorem getElem?_zipWith_of_lt (op : Nat → Nat → Nat) (l1 l2 : List Nat) (k : Nat)
    (h1 : k < l1.length) (h2 : k < l2.length) :
    ∃ x y, l1[k]? = some x ∧ l2[k]? = some y ∧ (List.zipWith op l1 l2)[k]? = some (op x y) := by
  refine ⟨l1[k], l2[k], List.getElem?_eq_getElem h1, List.getElem?_eq_getElem h2, ?_⟩
  rw [List.getElem?_zipWith, List.getElem?_eq_getElem h1, List.getElem?_eq_getElem h2]

namespace Heap

/-- Writing the byte-by-byte combination of the receiver with the other operand
through the receiver leaves the other operand as it was, also when both
pointers share a buffer. -/
theorem store_zipWith (op : Nat → Nat → Nat) (hop : ∀ x, op x x = x) (h : Heap) (p q : Ref)
    (a b : BitSet) (ha : load h p = some a) (hb : load h q = some b) :
    load (store h p { a with bytes := List.zipWith op a.bytes b.bytes }) p
        = some { a with bytes := List.zipWith op a.bytes b.bytes } ∧
      load (store h p { a with bytes := List.zipWith op a.bytes b.bytes }) q = some b := by
  obtain ⟨hpa, hpb⟩ := (load_eq_some h p a).mp ha
  obtain ⟨hqa, hqb⟩ := (load_eq_some h q b).mp hb
  have hlt : p.addr < h.length := (List.getElem?_eq_some.mp hpa).1
  constructor
  · apply (load_eq_some _ _ _).mpr
    exact ⟨List.getElem?_set_self hlt, hpb⟩
  · by_cases hpq : p.addr = q.addr
    · have hab : a.bytes = b.bytes := by
        rw [hpq, hqa] at hpa
        exact (Option.some.inj hpa).symm
      have hz : List.zipWith op a.bytes b.bytes = a.bytes := by
        rw [← hab]
        exact zipWith_idem op hop a.bytes
      have hst : store h p { a with bytes := List.zipWith op a.bytes b.bytes } = h := by
        unfold store
        simp only [hz]
        exact set_same h p.addr a.bytes hpa
      rw [hst]
      exact hb
    · exact (load_congr h _ q (List.getElem?_set_ne hpq)).trans hb

end Heap

/-- C11: `Union` postcondition at byte level. For BitSets `a` and `b` behind
pointers `p` and `q`, with equal `BytesCount`, `a.Union(b)` returns nil without an
out-of-range access; afterwards every byte `k` of `a` is (old byte `k` of `a`) OR
(byte `k` of `b`), the buffer length and `bitsCount` of `a` are unchanged, and `b`
is unchanged. -/
theorem Union_bytewise (h : Heap) (p q : Ref) (a b : BitSet)
    (ha : h.load p = some a) (hb : h.load q = some b) (hlen : a.BytesCount = b.BytesCount) :
    ∃ h' a', Heap.Union h p q = some (h', none) ∧ a.Union b = some (a', none) ∧
      h'.load p = some a' ∧
      a'.BytesCount = a.BytesCount ∧ a'.BitsCount = a.BitsCount ∧
      (∀ k, k < a.BytesCount →
        ∃ x y, a.Bytes[k]? = some x ∧ b.Bytes[k]? = some y ∧ a'.Bytes[k]? = some (x ||| y)) ∧
      h'.load q = some b := by
  obtain ⟨hp', hq'⟩ := Heap.store_zipWith (fun x y => x ||| y) Nat.or_self h p q a b ha hb
  have hl : a.bytes.length = b.bytes.length := hlen
  refine ⟨_, { a with bytes := List.zipWith (fun x y => x ||| y) a.bytes b.bytes }, ?_,
    BitSet.Union_eq a b hlen, hp', ?_, rfl, ?_, hq'⟩
  · rw [Heap.Union_of_load h p q a b ha hb, BitSet.Union_eq a b hlen]
    rfl
  · simp only [BitSet.BytesCount, List.length_zipWith, hl, Nat.min_self]
  · intro k hk
    exact getElem?_zipWith_of_lt _ a.bytes b.bytes k hk (by rw [← hl]; exact hk)

theorem Union_bytewise_witness :
    ∃ h' a', Heap.Union [[5, 0], [3, 128]] ⟨0, 16⟩ ⟨1, 9⟩ = some (h', none) ∧
      BitSet.Union ⟨[5, 0], 16⟩ ⟨[3, 128], 9⟩ = some (a', none) ∧
      Heap.load h' ⟨0, 16⟩ = some a' ∧ a'.Bytes = [7, 128] ∧
      Heap.load h' ⟨1, 9⟩ = some ⟨[3, 128], 9⟩ := by
  obtain ⟨h', a', hu, hv, hp, _, _, _, hq⟩ :=
    Union_bytewise [[5, 0], [3, 128]] ⟨0, 16⟩ ⟨1, 9⟩ ⟨[5, 0], 16⟩ ⟨[3, 128], 9⟩ rfl rfl rfl
  refine ⟨h', a', hu, hv, hp, ?_, hq⟩
  rw [BitSet.Union_eq ⟨[5, 0], 16⟩ ⟨[3, 128], 9⟩ rfl] at hv
  cases hv
  rfl

/-- C12: `Intersect` postcondition at byte level. For BitSets `a` and `b` behind
pointers `p` and `q`, with equal `BytesCount`, `a.Intersect(b)` returns nil without
an out-of-range access; afterwards every byte `k` of `a` is (old byte `k` of `a`)
AND (byte `k` of `b`), the buffer length and `bitsCount` of `a` are unchanged, and
`b` is unchanged. -/
theorem Intersect_bytewise (h : Heap) (p q : Ref) (a b : BitSet)
    (ha : h.load p = some a) (hb : h.load q = some b) (hlen : a.BytesCount = b.BytesCount) :
    ∃ h' a', Heap.Intersect h p q = some (h', none) ∧ a.Intersect b = some (a', none) ∧
      h'.load p = some a' ∧
      a'.BytesCount = a.BytesCount ∧ a'.BitsCount = a.BitsCount ∧
      (∀ k, k < a.BytesCount →
        ∃ x y, a.Bytes[k]? = some x ∧ b.Bytes[k]? = some y ∧ a'.Bytes[k]? = some (x &&& y)) ∧
      h'.load q = some b := by
  obtain ⟨hp', hq'⟩ := Heap.store_zipWith (fun x y => x &&& y) Nat.and_self h p q a b ha hb
  have hl : a.bytes.length = b.bytes.length := hlen
  refine ⟨_, { a with bytes := List.zipWith (fun x y => x &&& y) a.bytes b.bytes }, ?_,
    BitSet.Intersect_eq a b hlen, hp', ?_, rfl, ?_, hq'⟩
  · rw [Heap.Intersect_of_load h p q a b ha hb, BitSet.Intersect_eq a b hlen]
    rfl
  · simp only [BitSet.BytesCount, List.length_zipWith, hl, Nat.min_self]
  · intro k hk
    exact getElem?_zipWith_of_lt _ a.bytes b.bytes k hk (by rw [← hl]; exact hk)

theorem Intersect_bytewise_witness :
    ∃ h' a', Heap.Intersect [[5, 129], [3, 128]] ⟨0, 16⟩ ⟨1, 9⟩ = some (h', none) ∧
      BitSet.Intersect ⟨[5, 129], 16⟩ ⟨[3, 128], 9⟩ = some (a', none) ∧
      Heap.load h' ⟨0, 16⟩ = some a' ∧ a'.Bytes = [1, 128] ∧
      Heap.load h' ⟨1, 9⟩ = some ⟨[3, 128], 9⟩ := by
  obtain ⟨h', a', hu, hv, hp, _, _, _, hq⟩ :=
    Intersect_bytewise [[5, 129], [3, 128]] ⟨0, 16⟩ ⟨1, 9⟩ ⟨[5, 129], 16⟩ ⟨[3, 128], 9⟩
      rfl rfl rfl
  refine ⟨h', a', hu, hv, hp, ?_, hq⟩
  rw [BitSet.Intersect_eq ⟨[5, 129], 16⟩ ⟨[3, 128], 9⟩ rfl] at hv
  cases hv
  rfl

/-! ## `Union` and `Intersect` through `Test` -/

/-- Bit `i` of a byte-by-byte combination, from the bits `i` of the operands. -/
theorem Test_zipWith (op : Nat → Nat → Nat) (bop : Bool → Bool → Bool)
    (hop : ∀ x y m, (op x y).testBit m = bop (x.testBit m) (y.testBit m))
    (a b : BitSet) (n i : Nat) (hlen : a.BytesCount = b.BytesCount) (hi : i < 8 * a.BytesCount) :
    ∃ ta tb, a.Test i = some ta ∧ b.Test i = some tb ∧
      BitSet.Test ⟨List.zipWith op a.bytes b.bytes, n⟩ i = some (bop ta tb) := by
  have hl : a.bytes.length = b.bytes.length := hlen
  have hk : i / 8 < a.bytes.length := by unfold BitSet.BytesCount at hi; omega
  obtain ⟨x, y, hx, hy, hz⟩ :=
    getElem?_zipWith_of_lt op a.bytes b.bytes (i / 8) hk (by rw [← hl]; exact hk)
  refine ⟨x.testBit (i % 8), y.testBit (i % 8), ?_, ?_, ?_⟩
  · rw [BitSet.Test_eq, hx]; rfl
  · rw [BitSet.Test_eq, hy]; rfl
  · rw [BitSet.Test_eq]
    simp only [hz, Option.map_some', hop]

/-- C13: `Union` is set union as observed through `Test`, and is commutative in
its effect. For BitSets `a` and `b` with equal `BytesCount`, `a.Union(b)` and
`b.Union(a)` return nil; for every `i < 8 * BytesCount`, after `a.Union(b)`
`a.Test(i)` is true if and only if `a.Test(i)` or `b.Test(i)` was true before the
call; and the buffer `a` holds after `a.Union(b)` equals the buffer `b` would hold
after `b.Union(a)`. -/
theorem Union_is_set_union (a b : BitSet) (hlen : a.BytesCount = b.BytesCount) :
    ∃ a' b', a.Union b = some (a', none) ∧ b.Union a = some (b', none) ∧
      (∀ i, i < 8 * a.BytesCount →
        ∃ ta tb, a.Test i = some ta ∧ b.Test i = some tb ∧ a'.Test i = some (ta || tb)) ∧
      a'.Bytes = b'.Bytes := by
  refine ⟨_, _, BitSet.Union_eq a b hlen, BitSet.Union_eq b a hlen.symm, ?_, ?_⟩
  · intro i hi
    exact Test_zipWith (fun x y => x ||| y) (fun s t => s || t) Nat.testBit_or a b _ i hlen hi
  · exact List.zipWith_comm_of_comm _ Nat.lor_comm a.bytes b.bytes

theorem Union_is_set_union_witness :
    ∃ a' b', BitSet.Union ⟨[32, 0, 0], 20⟩ ⟨[64, 0, 0], 20⟩ = some (a', none) ∧
      BitSet.Union ⟨[64, 0, 0], 20⟩ ⟨[32, 0, 0], 20⟩ = some (b', none) ∧
      (∀ i, i < 8 * BitSet.BytesCount ⟨[32, 0, 0], 20⟩ →
        ∃ ta tb, BitSet.Test ⟨[32, 0, 0], 20⟩ i = some ta ∧
          BitSet.Test ⟨[64, 0, 0], 20⟩ i = some tb ∧ a'.Test i = some (ta || tb)) ∧
      a'.Bytes = b'.Bytes :=
  Union_is_set_union ⟨[32, 0, 0], 20⟩ ⟨[64, 0, 0], 20⟩ rfl

/-- C14: `Intersect` is set intersection as observed through `Test`. For BitSets
`a` and `b` with equal `BytesCount`, `a.Intersect(b)` returns nil and, for every
`i < 8 * BytesCount`, afterwards `a.Test(i)` is true if and only if both
`a.Test(i)` and `b.Test(i)` were true before the call. -/
theorem Intersect_is_set_intersection (a b : BitSet) (hlen : a.BytesCount = b.BytesCount) :
    ∃ a', a.Intersect b = some (a', none) ∧
      ∀ i, i < 8 * a.BytesCount →
        ∃ ta tb, a.Test i = some ta ∧ b.Test i = some tb ∧ a'.Test i = some (ta && tb) := by
  refine ⟨_, BitSet.Intersect_eq a b hlen, ?_⟩
  intro i hi
  exact Test_zipWith (fun x y => x &&& y) (fun s t => s && t) Nat.testBit_and a b _ i hlen hi

theorem Intersect_is_set_intersection_witness :
    ∃ a', BitSet.Intersect ⟨[32, 0, 0], 20⟩ ⟨[96, 0, 0], 20⟩ = some (a', none) ∧
      ∀ i, i < 8 * BitSet.BytesCount ⟨[32, 0, 0], 20⟩ →
        ∃ ta tb, BitSet.Test ⟨[32, 0, 0], 20⟩ i = some ta ∧
          BitSet.Test ⟨[96, 0, 0], 20⟩ i = some tb ∧ a'.Test i = some (ta && tb) :=
  Intersect_is_set_intersection ⟨[32, 0, 0], 20⟩ ⟨[96, 0, 0], 20⟩ rfl

/-! ## Laws of `Intersect` -/

theorem Copy_eq (a : BitSet) : a.Copy = a := by
  unfold BitSet.Copy
  rw [NewFromBytes_eq]

theorem zipWith_and_zeros (l z : List Nat) (hz : ∀ x ∈ z, x = 0) :
    ∀ x ∈ List.zipWith (fun x y => x &&& y) l z, x = 0 := by
  induction l generalizing z with
  | nil => intro x hx; simp at hx
  | cons a as ih =>
    cases z with
    | nil => intro x hx; simp at hx
    | cons y ys =>
      intro x hx
      rw [List.zipWith_cons_cons, List.mem_cons] at hx
      rcases hx with hx | hx
      · rw [hx, hz y (List.mem_cons_self _ _)]
        exact Nat.and_zero a
      · exact ih ys (fun w hw => hz w (List.mem_cons_of_mem _ hw)) x hx

theorem OnesCount_of_zeros (b : BitSet) (hb : ∀ x ∈ b.bytes, x = 0) : b.OnesCount = 0 := by
  have hrep : b.bytes = List.replicate b.bytes.length 0 :=
    List.eq_replicate_iff.mpr ⟨rfl, hb⟩
  unfold BitSet.OnesCount BitSet.Bytes
  rw [hrep]
  exact foldl_count_zeros _

/-- C15: `Intersect` identity and annihilator laws. For every BitSet `a`,
intersecting `a` with itself (by value, through one and the same pointer, or with
a `Copy` of itself) returns nil and leaves `a` unchanged; and for every all-zero
BitSet `z` with `z.BytesCount() == a.BytesCount()`, `a.Intersect(z)` returns nil and
leaves every byte of `a` equal to `0`, so that `a.OnesCount() == 0`. -/
theorem Intersect_identity_annihilator (a z : BitSet) (hz : ∀ x ∈ z.Bytes, x = 0)
    (hlen : z.BytesCount = a.BytesCount) :
    a.Intersect a = some (a, none) ∧ a.Intersect a.Copy = some (a, none) ∧
      (∀ (h : Heap) (p : Ref), h.load p = some a → Heap.Intersect h p p = some (h, none)) ∧
      ∃ a', a.Intersect z = some (a', none) ∧ a'.BytesCount = a.BytesCount ∧
        (∀ x ∈ a'.Bytes, x = 0) ∧ a'.OnesCount = 0 := by
  have hself : a.Intersect a = some (a, none) := by
    rw [BitSet.Intersect_eq a a rfl, zipWith_idem _ Nat.and_self]
  refine ⟨hself, ?_, ?_, ?_⟩
  · rw [Copy_eq]
    exact hself
  · intro h p hp
    rw [Heap.Intersect_of_load h p p a a hp hp, hself]
    simp only [Option.map_some', Heap.store_self h p a hp]
  · have hl : a.bytes.length = z.bytes.length := hlen.symm
    have hzero := zipWith_and_zeros a.bytes z.bytes hz
    refine ⟨_, BitSet.Intersect_eq a z hlen.symm, ?_, hzero, OnesCount_of_zeros _ hzero⟩
    simp only [BitSet.BytesCount, List.length_zipWith, hl, Nat.min_self]

theorem Intersect_identity_annihilator_witness :
    (∀ x ∈ BitSet.Bytes ⟨[0, 0], 16⟩, x = 0) ∧
      BitSet.Intersect ⟨[33, 255], 12⟩ ⟨[33, 255], 12⟩ = some (⟨[33, 255], 12⟩, none) ∧
      ∃ a', BitSet.Intersect ⟨[33, 255], 12⟩ ⟨[0, 0], 16⟩ = some (a', none) ∧
        a'.BytesCount = BitSet.BytesCount ⟨[33, 255], 12⟩ ∧
        (∀ x ∈ a'.Bytes, x = 0) ∧ a'.OnesCount = 0 :=
  ⟨by decide,
    (Intersect_identity_annihilator ⟨[33, 255], 12⟩ ⟨[0, 0], 16⟩ (by decide) rfl).1,
    (Intersect_identity_annihilator ⟨[33, 255], 12⟩ ⟨[0, 0], 16⟩ (by decide) rfl).2.2.2⟩

/-! ## Addressing and bounds of `Set` and `Test` -/

/-- C18: `Set` uses least-significant-bit-first addressing and touches nothing
else. For every BitSet `b` and every `i < 8 * b.BytesCount()`, `b.Set(i)` runs
without a panic; afterwards byte `i / 8` of the buffer is its old value OR
`1 << (i mod 8)`, every other byte is unchanged, the buffer length and `bitsCount`
are unchanged, and `Test(j)` is unchanged for every `j != i`. -/
theorem Set_lsb_first_frame (b : BitSet) (i : Nat) (h : i < 8 * b.BytesCount) :
    ∃ b' x, b.Set i = some b' ∧ b.Bytes[i / 8]? = some x ∧
      b'.Bytes[i / 8]? = some (x ||| (1 <<< (i % 8))) ∧
      (∀ k, k ≠ i / 8 → b'.Bytes[k]? = b.Bytes[k]?) ∧
      b'.BytesCount = b.BytesCount ∧ b'.BitsCount = b.BitsCount ∧
      (∀ j, j ≠ i → b'.Test j = b.Test j) := by
  have hi : i / 8 < b.bytes.length := by unfold BitSet.BytesCount at h; omega
  have hx : b.bytes[i / 8]? = some b.bytes[i / 8] := List.getElem?_eq_getElem hi
  have hset : b.Set i
      = some { b with bytes := b.bytes.set (i / 8) (b.bytes[i / 8] ||| 2 ^ (i % 8)) } := by
    rw [BitSet.Set_eq, hx]
    rfl
  refine ⟨_, b.bytes[i / 8], hset, hx, ?_, ?_, ?_, rfl, ?_⟩
  · show (b.bytes.set (i / 8) _)[i / 8]? = _
    rw [List.getElem?_set_self hi, Nat.one_shiftLeft]
  · intro k hk
    exact List.getElem?_set_ne (fun e => hk e.symm)
  · simp only [BitSet.BytesCount, List.length_set]
  · intro j hj
    rw [BitSet.Test_Set b _ i j hset]
    have hij : ¬ i = j := fun e => hj e.symm
    cases b.Test j <;> simp [hij]

theorem Set_lsb_first_frame_witness :
    10 < 8 * BitSet.BytesCount ⟨[1, 2], 9⟩ ∧
      ∃ b' x, BitSet.Set ⟨[1, 2], 9⟩ 10 = some b' ∧ (BitSet.Bytes ⟨[1, 2], 9⟩)[10 / 8]? = some x ∧
        b'.Bytes[10 / 8]? = some (x ||| (1 <<< (10 % 8))) ∧
        (∀ k, k ≠ 10 / 8 → b'.Bytes[k]? = (BitSet.Bytes ⟨[1, 2], 9⟩)[k]?) ∧
        b'.BytesCount = BitSet.BytesCount ⟨[1, 2], 9⟩ ∧
        b'.BitsCount = BitSet.BitsCount ⟨[1, 2], 9⟩ ∧
        (∀ j, j ≠ 10 → b'.Test j = BitSet.Test ⟨[1, 2], 9⟩ j) :=
  ⟨by decide, Set_lsb_first_frame ⟨[1, 2], 9⟩ 10 (by decide)⟩

namespace BitSet

theorem Set_eq_none_iff (b : BitSet) (i : Nat) : b.Set i = none ↔ b.BytesCount ≤ i / 8 := by
  rw [Set_eq, Option.map_eq_none', List.getElem?_eq_none_iff]
  rfl

theorem Test_eq_none_iff (b : BitSet) (i : Nat) : b.Test i = none ↔ b.BytesCount ≤ i / 8 := by
  rw [Test_eq, Option.map_eq_none', List.getElem?_eq_none_iff]
  rfl

theorem SetOutcome_of_lt (b : BitSet) (i : Nat) (h : i / 8 < b.bytes.length) :
    b.SetOutcome i
        = ({ b with bytes := b.bytes.set (i / 8) (b.bytes[i / 8] ||| 2 ^ (i % 8)) }, false) ∧
      b.Set i = some { b with bytes := b.bytes.set (i / 8) (b.bytes[i / 8] ||| 2 ^ (i % 8)) } := by
  constructor
  · unfold SetOutcome
    simp only [byteSize, bitmask_eq, h, dite_true, List.get_eq_getElem]
  · rw [Set_eq, List.getElem?_eq_getElem h]
    rfl

theorem SetOutcome_of_le (b : BitSet) (i : Nat) (h : b.bytes.length ≤ i / 8) :
    b.SetOutcome i = (b, true) ∧ b.Set i = none := by
  constructor
  · unfold SetOutcome
    have hn : ¬ i / 8 < b.bytes.length := by omega
    simp only [byteSize, hn, dite_false]
  · exact (Set_eq_none_iff b i).mpr h

end BitSet

/-- C19: bounds behaviour of `Set` and `Test`. For every BitSet `b` and every
index `i`, `Set(i)` and `Test(i)` fail with the run-time index-out-of-range error
if and only if `i / 8 >= b.BytesCount()`; a failing `Set` leaves `b` unchanged;
and for every `i < 8 * b.BytesCount()`, pad bits (`b.BitsCount() <= i`) included,
they do not fail, `Set(i)` sets the bit, `Test(i)` then reports true, and
`OnesCount` counts it (one more than before when the bit was zero; the buffer
has fewer than `2 ^ 61` bytes, so that the counter cannot wrap). -/
theorem Set_Test_bounds (b : BitSet) (i : Nat) :
    (b.Set i = none ↔ b.BytesCount ≤ i / 8) ∧
      (b.Test i = none ↔ b.BytesCount ≤ i / 8) ∧
      ((b.SetOutcome i).2 = true ↔ b.BytesCount ≤ i / 8) ∧
      ((b.SetOutcome i).2 = true → (b.SetOutcome i).1 = b) ∧
      (∀ b', b.Set i = some b' ↔ b.SetOutcome i = (b', false)) ∧
      (i < 8 * b.BytesCount →
        ∃ b' t, b.Set i = some b' ∧ b.Test i = some t ∧ b'.Test i = some true ∧
          (8 * b.BytesCount < 2 ^ 64 →
            b'.OnesCount = b.OnesCount + (if t = true then 0 else 1))) := by
  refine ⟨BitSet.Set_eq_none_iff b i, BitSet.Test_eq_none_iff b i, ?_, ?_, ?_, ?_⟩
  · by_cases h : i / 8 < b.bytes.length
    · rw [(BitSet.SetOutcome_of_lt b i h).1]
      simp only [BitSet.BytesCount, Bool.false_eq_true, false_iff, not_le]
      exact h
    · rw [(BitSet.SetOutcome_of_le b i (by omega)).1]
      simp only [BitSet.BytesCount, true_iff]
      omega
  · by_cases h : i / 8 < b.bytes.length
    · rw [(BitSet.SetOutcome_of_lt b i h).1]
      intro hf
      cases hf
    · rw [(BitSet.SetOutcome_of_le b i (by omega)).1]
      intro _
      rfl
  · intro b'
    by_cases h : i / 8 < b.bytes.length
    · rw [(BitSet.SetOutcome_of_lt b i h).1, (BitSet.SetOutcome_of_lt b i h).2]
      constructor
      · intro e
        rw [Option.some.inj e]
      · intro e
        rw [(Prod.mk.inj e).1]
    · rw [(BitSet.SetOutcome_of_le b i (by omega)).1, (BitSet.SetOutcome_of_le b i (by omega)).2]
      constructor
      · intro e
        cases e
      · intro e
        cases (Prod.mk.inj e).2
  · intro hi
    obtain ⟨b', hset⟩ := BitSet.Set_isSome b i hi
    obtain ⟨t, ht, hsum⟩ := BitSet.sum_Set b b' i hset
    refine ⟨b', t, hset, ht, ?_, ?_⟩
    · rw [BitSet.Test_Set b b' i i hset, ht]
      simp
    · intro hsmall
      have hlen := (BitSet.Set_frame b b' i hset).1
      have hsmall' : 8 * b'.BytesCount < 2 ^ 64 := by
        unfold BitSet.BytesCount at hsmall ⊢
        rw [hlen]
        exact hsmall
      rw [BitSet.OnesCount_eq_sum b' hsmall', hsum, ← BitSet.OnesCount_eq_sum b hsmall]

theorem Set_Test_bounds_witness :
    BitSet.BitsCount ⟨[0, 0], 9⟩ ≤ 12 ∧ 12 < 8 * BitSet.BytesCount ⟨[0, 0], 9⟩ ∧
      ∃ b' t, BitSet.Set ⟨[0, 0], 9⟩ 12 = some b' ∧ BitSet.Test ⟨[0, 0], 9⟩ 12 = some t ∧
        b'.Test 12 = some true ∧
        (8 * BitSet.BytesCount ⟨[0, 0], 9⟩ < 2 ^ 64 →
          b'.OnesCount = BitSet.OnesCount ⟨[0, 0], 9⟩ + (if t = true then 0 else 1)) :=
  ⟨by decide, by decide, (Set_Test_bounds ⟨[0, 0], 9⟩ 12).2.2.2.2.2 (by decide)⟩

/-! ## Inclusion and exclusion -/

theorem length_filter_or_and (p q : Nat → Bool) (l : List Nat) :
    (l.filter (fun k => p k || q k)).length + (l.filter (fun k => p k && q k)).length
      = (l.filter p).length + (l.filter q).length := by
  induction l with
  | nil => rfl
  | cons a as ih =>
    simp only [List.filter_cons]
    cases hp : p a <;> cases hq : q a <;> simp <;> omega

theorem OnesCount8_or_and (x y : Nat) :
    OnesCount8 (x ||| y) + OnesCount8 (x &&& y) = OnesCount8 x + OnesCount8 y := by
  unfold OnesCount8
  rw [← length_filter_or_and (fun k => x.testBit k) (fun k => y.testBit k)]
  simp only [Nat.testBit_or, Nat.testBit_and]

theorem OnesCount8_and_le (x y : Nat) : OnesCount8 (x &&& y) ≤ OnesCount8 x := by
  unfold OnesCount8
  rw [← List.countP_eq_length_filter, ← List.countP_eq_length_filter]
  apply List.countP_mono_left
  intro k _ hk
  rw [Nat.testBit_and, Bool.and_eq_true] at hk
  exact hk.1

theorem OnesCount8_le_or (x y : Nat) : OnesCount8 x ≤ OnesCount8 (x ||| y) := by
  unfold OnesCount8
  rw [← List.countP_eq_length_filter, ← List.countP_eq_length_filter]
  apply List.countP_mono_left
  intro k _ hk
  rw [Nat.testBit_or, hk]
  rfl

theorem sum_zipWith_or_and (l1 l2 : List Nat) (h : l1.length = l2.length) :
    ((List.zipWith (fun x y => x ||| y) l1 l2).map OnesCount8).sum
        + ((List.zipWith (fun x y => x &&& y) l1 l2).map OnesCount8).sum
      = (l1.map OnesCount8).sum + (l2.map OnesCount8).sum := by
  induction l1 generalizing l2 with
  | nil =>
    cases l2 with
    | nil => rfl
    | cons y ys => simp at h
  | cons x xs ih =>
    cases l2 with
    | nil => simp at h
    | cons y ys =>
      have hl : xs.length = ys.length := by simpa using h
      have hxy := OnesCount8_or_and x y
      have := ih ys hl
      simp only [List.zipWith_cons_cons, List.map_cons, List.sum_cons]
      omega

theorem sum_zipWith_and_le (l1 l2 : List Nat) :
    ((List.zipWith (fun x y => x &&& y) l1 l2).map OnesCount8).sum ≤ (l1.map OnesCount8).sum := by
  induction l1 generalizing l2 with
  | nil => simp
  | cons x xs ih =>
    cases l2 with
    | nil => simp
    | cons y ys =>
      have hxy := OnesCount8_and_le x y
      have := ih ys
      simp only [List.zipWith_cons_cons, List.map_cons, List.sum_cons]
      omega

theorem sum_le_zipWith_or (l1 l2 : List Nat) (h : l1.length = l2.length) :
    (l1.map OnesCount8).sum ≤ ((List.zipWith (fun x y => x ||| y) l1 l2).map OnesCount8).sum := by
  induction l1 generalizing l2 with
  | nil => simp
  | cons x xs ih =>
    cases l2 with
    | nil => simp at h
    | cons y ys =>
      have hl : xs.length = ys.length := by simpa using h
      have hxy := OnesCount8_le_or x y
      have := ih ys hl
      simp only [List.zipWith_cons_cons, List.map_cons, List.sum_cons]
      omega

/-- C20: inclusion-exclusion for `OnesCount`. For BitSets `a` and `b` with equal
`BytesCount` (fewer than `2 ^ 61` bytes, so that the counter cannot wrap), with
`u` the result of `Union(b)` applied to a copy of `a` and `v` the result of
`Intersect(b)` applied to a copy of `a`:
`u.OnesCount() + v.OnesCount() == a.OnesCount() + b.OnesCount()` and
`v.OnesCount() <= a.OnesCount() <= u.OnesCount()`; in particular the union of two
single-bit sets with no bit in common has `OnesCount` 2. -/
theorem OnesCount_inclusion_exclusion (a b : BitSet) (hlen : a.BytesCount = b.BytesCount)
    (hsmall : 8 * a.BytesCount < 2 ^ 64) :
    ∃ u v, a.Copy.Union b = some (u, none) ∧ a.Copy.Intersect b = some (v, none) ∧
      u.OnesCount + v.OnesCount = a.OnesCount + b.OnesCount ∧
      v.OnesCount ≤ a.OnesCount ∧ a.OnesCount ≤ u.OnesCount ∧
      (a.OnesCount = 1 → b.OnesCount = 1 →
        (∀ i, i < 8 * a.BytesCount → ¬ (a.Test i = some true ∧ b.Test i = some true)) →
        u.OnesCount = 2) := by
  have hl : a.bytes.length = b.bytes.length := hlen
  have hsb : 8 * b.BytesCount < 2 ^ 64 := by rw [← hlen]; exact hsmall
  have hlu : (List.zipWith (fun x y => x ||| y) a.bytes b.bytes).length = a.bytes.length := by
    simp only [List.length_zipWith, hl, Nat.min_self]
  have hlv : (List.zipWith (fun x y => x &&& y) a.bytes b.bytes).length = a.bytes.length := by
    simp only [List.length_zipWith, hl, Nat.min_self]
  have hsu : 8 * BitSet.BytesCount
      ⟨List.zipWith (fun x y => x ||| y) a.bytes b.bytes, a.bitsCount⟩ < 2 ^ 64 := by
    unfold BitSet.BytesCount at hsmall ⊢
    rw [hlu]
    exact hsmall
  have hsv : 8 * BitSet.BytesCount
      ⟨List.zipWith (fun x y => x &&& y) a.bytes b.bytes, a.bitsCount⟩ < 2 ^ 64 := by
    unfold BitSet.BytesCount at hsmall ⊢
    rw [hlv]
    exact hsmall
  have hu := BitSet.OnesCount_eq_sum _ hsu
  have hv := BitSet.OnesCount_eq_sum _ hsv
  have hie := sum_zipWith_or_and a.bytes b.bytes hl
  have hsum : BitSet.OnesCount ⟨List.zipWith (fun x y => x ||| y) a.bytes b.bytes, a.bitsCount⟩
      + BitSet.OnesCount ⟨List.zipWith (fun x y => x &&& y) a.bytes b.bytes, a.bitsCount⟩
      = a.OnesCount + b.OnesCount := by
    rw [hu, hv, BitSet.OnesCount_eq_sum a hsmall, BitSet.OnesCount_eq_sum b hsb]
    exact hie
  refine ⟨⟨List.zipWith (fun x y => x ||| y) a.bytes b.bytes, a.bitsCount⟩,
    ⟨List.zipWith (fun x y => x &&& y) a.bytes b.bytes, a.bitsCount⟩, ?_, ?_, hsum, ?_, ?_, ?_⟩
  · rw [Copy_eq, BitSet.Union_eq a b hlen]
  · rw [Copy_eq, BitSet.Intersect_eq a b hlen]
  · rw [hv, BitSet.OnesCount_eq_sum a hsmall]
    exact sum_zipWith_and_le a.bytes b.bytes
  · rw [hu, BitSet.OnesCount_eq_sum a hsmall]
    exact sum_le_zipWith_or a.bytes b.bytes hl
  · intro ha hb hdisj
    have hzero : BitSet.OnesCount
        ⟨List.zipWith (fun x y => x &&& y) a.bytes b.bytes, a.bitsCount⟩ = 0 := by
      rw [hv, ← onesIn_eq_sum, ← BitSet.filter_Test_eq, List.length_eq_zero,
        List.filter_eq_nil_iff]
      intro i hi
      have hi' : i < 8 * a.BytesCount := by
        have := List.mem_range.mp hi
        simp only [BitSet.BytesCount] at this ⊢
        rw [hlv] at this
        exact this
      obtain ⟨ta, tb, hta, htb, ht⟩ :=
        Test_zipWith (fun x y => x &&& y) (fun s t => s && t) Nat.testBit_and a b a.bitsCount i
          hlen hi'
      rw [ht]
      have hd := hdisj i hi'
      rw [hta, htb] at hd
      cases ta <;> cases tb <;> simp at hd ⊢
    omega

theorem OnesCount_inclusion_exclusion_witness :
    ∃ u v, BitSet.Union (BitSet.Copy ⟨[32, 0, 0], 20⟩) ⟨[64, 0, 0], 20⟩ = some (u, none) ∧
      BitSet.Intersect (BitSet.Copy ⟨[32, 0, 0], 20⟩) ⟨[64, 0, 0], 20⟩ = some (v, none) ∧
      u.OnesCount + v.OnesCount
        = BitSet.OnesCount ⟨[32, 0, 0], 20⟩ + BitSet.OnesCount ⟨[64, 0, 0], 20⟩ ∧
      u.OnesCount = 2 := by
  obtain ⟨u, v, hu, hv, hsum, _, _, htwo⟩ :=
    OnesCount_inclusion_exclusion ⟨[32, 0, 0], 20⟩ ⟨[64, 0, 0], 20⟩ rfl (by decide)
  exact ⟨u, v, hu, hv, hsum, htwo (by decide) (by decide) (by decide)⟩

/-! ## Hexadecimal encoding -/

theorem hextable_digit (n : Nat) (h : n < 16) :
    hextable.getD n ' ' = Nat.digitChar n ∧ hextable.getD n ' ' ∈ hextable := by
  interval_cases n <;> exact ⟨by decide, by decide⟩

theorem byte_nibbles (x : Nat) (h : x < 2 ^ 8) :
    x >>> 4 = x / 16 ∧ x &&& 0x0f = x % 16 ∧ x / 16 < 16 ∧ x % 16 < 16 := by
  refine ⟨?_, ?_, ?_, ?_⟩
  · rw [Nat.shiftRight_eq_div_pow]
  · exact Nat.and_pow_two_sub_one_eq_mod x 4
  · omega
  · omega

theorem Encode_length (src : List Nat) : (Encode src).length = 2 * src.length := by
  induction src with
  | nil => rfl
  | cons v src ih =>
    simp only [Encode, List.length_cons, ih]
    omega

theorem Encode_getElem (src : List Nat) (k x : Nat) (h : src[k]? = some x) :
    (Encode src)[2 * k]? = some (hextable.getD (x >>> 4) ' ') ∧
      (Encode src)[2 * k + 1]? = some (hextable.getD (x &&& 0x0f) ' ') := by
  induction src generalizing k with
  | nil => simp at h
  | cons v src ih =>
    cases k with
    | zero =>
      simp only [List.getElem?_cons_zero, Option.some.injEq] at h
      subst h
      constructor
      · simp only [Encode, Nat.mul_zero, List.getElem?_cons_zero]
      · simp only [Encode, Nat.mul_zero, Nat.zero_add, List.getElem?_cons_succ,
          List.getElem?_cons_zero]
    | succ k =>
      simp only [List.getElem?_cons_succ] at h
      have h2 : 2 * (k + 1) = 2 * k + 1 + 1 := by omega
      have h3 : 2 * (k + 1) + 1 = 2 * k + 1 + 1 + 1 := by omega
      obtain ⟨ih1, ih2⟩ := ih k h
      constructor
      · rw [h2]
        simp only [Encode, List.getElem?_cons_succ]
        exact ih1
      · rw [h3]
        simp only [Encode, List.getElem?_cons_succ]
        exact ih2

theorem Encode_mem (src : List Nat) (hb : ∀ x ∈ src, x < 2 ^ 8) :
    ∀ c ∈ Encode src, c ∈ hextable := by
  induction src with
  | nil => intro c hc; simp [Encode] at hc
  | cons v src ih =>
    intro c hc
    obtain ⟨h1, h2, h3, h4⟩ := byte_nibbles v (hb v (List.mem_cons_self _ _))
    simp only [Encode, List.mem_cons] at hc
    rcases hc with hc | hc | hc
    · rw [hc, h1]
      exact (hextable_digit _ h3).2
    · rw [hc, h2]
      exact (hextable_digit _ h4).2
    · exact ih (fun x hx => hb x (List.mem_cons_of_mem _ hx)) c hc

theorem New_1 : New 1 = some (Except.ok ⟨[0], 1⟩) := by
  have hc : bytesCount 1 = 1 := by rw [bytesCount_eq]; decide
  rw [New_ok 1 (by decide) (by rw [hc]; decide), hc]
  rfl

/-- C16: `HexEncode` returns the lowercase hexadecimal encoding of the buffer. For
every BitSet `b` (its buffer elements being bytes) the result has exactly
`2 * b.BytesCount()` characters, all drawn from `0-9a-f`, with no prefix or
separator, and characters `2k` and `2k+1` are the digits of the high and the low
nibble of byte `k`, in buffer order; `New(1)` with bit 0 set encodes to `01`, and
with bits 0 and 7 set to `81`. -/
theorem HexEncode_lowercase_hex (b : BitSet) (hb : ∀ x ∈ b.Bytes, x < 2 ^ 8) :
    b.HexEncode.length = 2 * b.BytesCount ∧
      (∀ c ∈ b.HexEncode.data, c ∈ "0123456789abcdef".data) ∧
      (∀ k x, b.Bytes[k]? = some x →
        b.HexEncode.data[2 * k]? = some (Nat.digitChar (x / 16)) ∧
        b.HexEncode.data[2 * k + 1]? = some (Nat.digitChar (x % 16))) ∧
      (∃ b0 b1 b2, New 1 = some (Except.ok b0) ∧ b0.Set 0 = some b1 ∧ b1.HexEncode = "01" ∧
        b1.Set 7 = some b2 ∧ b2.HexEncode = "81") := by
  refine ⟨?_, ?_, ?_, ?_⟩
  · exact Encode_length b.bytes
  · exact Encode_mem b.bytes hb
  · intro k x hx
    have hxm : x ∈ b.bytes := by
      obtain ⟨hk, hxe⟩ := List.getElem?_eq_some.mp hx
      rw [← hxe]
      exact List.getElem_mem _
    obtain ⟨h1, h2, h3, h4⟩ := byte_nibbles x (hb x hxm)
    obtain ⟨e1, e2⟩ := Encode_getElem b.bytes k x hx
    rw [h1, (hextable_digit _ h3).1] at e1
    rw [h2, (hextable_digit _ h4).1] at e2
    exact ⟨e1, e2⟩
  · exact ⟨_, ⟨[1], 1⟩, ⟨[129], 1⟩, New_1, by decide, by decide, by decide, by decide⟩

theorem HexEncode_lowercase_hex_witness :
    (∀ x ∈ BitSet.Bytes ⟨[171, 5], 12⟩, x < 2 ^ 8) ∧
      BitSet.HexEncode ⟨[171, 5], 12⟩ = "ab05" ∧
      (BitSet.HexEncode ⟨[171, 5], 12⟩).length = 2 * BitSet.BytesCount ⟨[171, 5], 12⟩ ∧
      ∀ c ∈ (BitSet.HexEncode ⟨[171, 5], 12⟩).data, c ∈ "0123456789abcdef".data :=
  ⟨by decide, by decide,
    (HexEncode_lowercase_hex ⟨[171, 5], 12⟩ (by decide)).1,
    (HexEncode_lowercase_hex ⟨[171, 5], 12⟩ (by decide)).2.1⟩

/-! ## Representation invariant -/

namespace BitSet

theorem Union_frame (a other a' : BitSet) (err : Option String)
    (h : a.Union other = some (a', err)) :
    a'.bytes.length = a.bytes.length ∧ a'.bitsCount = a.bitsCount := by
  by_cases hlen : a.BytesCount = other.BytesCount
  · rw [Union_eq a other hlen] at h
    cases h
    have hl : a.bytes.length = other.bytes.length := hlen
    simp only [List.length_zipWith, hl, Nat.min_self, and_self]
  · rw [Union_mismatch a other hlen] at h
    cases h
    exact ⟨rfl, rfl⟩

theorem Intersect_frame (a other a' : BitSet) (err : Option String)
    (h : a.Intersect other = some (a', err)) :
    a'.bytes.length = a.bytes.length ∧ a'.bitsCount = a.bitsCount := by
  by_cases hlen : a.BytesCount = other.BytesCount
  · rw [Intersect_eq a other hlen] at h
    cases h
    have hl : a.bytes.length = other.bytes.length := hlen
    simp only [List.length_zipWith, hl, Nat.min_self, and_self]
  · rw [Intersect_mismatch a other hlen] at h
    cases h
    exact ⟨rfl, rfl⟩

end BitSet

/-- No method changes the length of the buffer or the bit count. -/
theorem Evolves_frame (b0 b : BitSet) (hev : Evolves b0 b) :
    b.bytes.length = b0.bytes.length ∧ b.bitsCount = b0.bitsCount := by
  induction hev with
  | start => exact ⟨rfl, rfl⟩
  | set b b' i _ hset ih =>
    obtain ⟨h1, h2⟩ := BitSet.Set_frame b b' i hset
    exact ⟨h1.trans ih.1, h2.trans ih.2⟩
  | union b other b' err _ hu ih =>
    obtain ⟨h1, h2⟩ := BitSet.Union_frame b other b' err hu
    exact ⟨h1.trans ih.1, h2.trans ih.2⟩
  | intersect b other b' err _ hu ih =>
    obtain ⟨h1, h2⟩ := BitSet.Intersect_frame b other b' err hu
    exact ⟨h1.trans ih.1, h2.trans ih.2⟩
  | copy b _ ih =>
    rw [Copy_eq]
    exact ih

/-- Every BitSet of the public interface descends from a result of `New` or of
`NewFromBytes`. -/
theorem Reachable_origin (b : BitSet) (hr : Reachable b) :
    ∃ b0, ((∃ n, New n = some (Except.ok b0)) ∨ (∃ k bs, b0 = NewFromBytes k bs)) ∧
      Evolves b0 b := by
  induction hr with
  | new n b h => exact ⟨b, Or.inl ⟨n, h⟩, Evolves.start⟩
  | newFromBytes k bs => exact ⟨_, Or.inr ⟨k, bs, rfl⟩, Evolves.start⟩
  | set b b' i _ hset ih =>
    obtain ⟨b0, ho, hev⟩ := ih
    exact ⟨b0, ho, Evolves.set b b' i hev hset⟩
  | union b other b' err _ _ hu ih _ =>
    obtain ⟨b0, ho, hev⟩ := ih
    exact ⟨b0, ho, Evolves.union b other b' err hev hu⟩
  | intersect b other b' err _ _ hu ih _ =>
    obtain ⟨b0, ho, hev⟩ := ih
    exact ⟨b0, ho, Evolves.intersect b other b' err hev hu⟩
  | copy b _ ih =>
    obtain ⟨b0, ho, hev⟩ := ih
    exact ⟨b0, ho, Evolves.copy b hev⟩

/-- C17, as stated, fails: `NewFromBytes` validates nothing, so `NewFromBytes(0, [])`
is a BitSet of the public interface with `bitsCount == 0`, and
`NewFromBytes(100, [1])` is one whose buffer has `1` byte and not
`ceil(100 / 8) = 13`. -/
theorem invariant_fails_for_NewFromBytes :
    (Reachable (NewFromBytes 0 []) ∧ ¬ 1 ≤ (NewFromBytes 0 []).BitsCount) ∧
      (Reachable (NewFromBytes 100 [1]) ∧
        (NewFromBytes 100 [1]).BytesCount ≠ ((NewFromBytes 100 [1]).BitsCount + 7) / 8) ∧
      ¬ ∀ b, Reachable b → b.BytesCount = (b.BitsCount + 7) / 8 ∧ 1 ≤ b.BitsCount := by
  refine ⟨⟨Reachable.newFromBytes 0 [], by decide⟩, ⟨Reachable.newFromBytes 100 [1], by decide⟩, ?_⟩
  intro h
  have h0 := (h _ (Reachable.newFromBytes 0 [])).2
  revert h0
  decide

/-- C17, amended: `Set`, `Union`, `Intersect` and `Copy` never change the buffer
length or `bitsCount`. Hence a BitSet created by `New(n)` and then modified by
any sequence of these methods has a buffer of `ceil(bitsCount / 8)` bytes and
`bitsCount >= 1`, and a BitSet created by `NewFromBytes(k, bs)` keeps the length
of `bs` and the bit count `k` it was given, whatever they are. -/
theorem representation_invariant (b0 b : BitSet) (hev : Evolves b0 b) :
    (b.BytesCount = b0.BytesCount ∧ b.BitsCount = b0.BitsCount) ∧
      (∀ n, New n = some (Except.ok b0) →
        b.BytesCount = (b.BitsCount + 7) / 8 ∧ 1 ≤ b.BitsCount) ∧
      (∀ k bs, b0 = NewFromBytes k bs → b.BytesCount = bs.length ∧ b.BitsCount = k) := by
  obtain ⟨hlen, hbits⟩ := Evolves_frame b0 b hev
  refine ⟨⟨hlen, hbits⟩, ?_, ?_⟩
  · intro n h0
    obtain ⟨h1, hk, hb0⟩ := New_ok_inv n b0 h0
    subst hb0
    simp only [BitSet.BytesCount, BitSet.BitsCount, hlen, hbits, List.length_replicate]
    exact ⟨(bytesCount_le_maxAlloc n hk).2, h1⟩
  · intro k bs h0
    subst h0
    rw [NewFromBytes_eq] at hlen hbits
    exact ⟨hlen, hbits⟩

theorem representation_invariant_witness :
    Evolves ⟨[0, 0, 0], 20⟩ ⟨[32, 0, 0], 20⟩ ∧
      BitSet.BytesCount ⟨[32, 0, 0], 20⟩ = (BitSet.BitsCount ⟨[32, 0, 0], 20⟩ + 7) / 8 ∧
      1 ≤ BitSet.BitsCount ⟨[32, 0, 0], 20⟩ :=
  ⟨Evolves.set _ _ 5 Evolves.start (by decide),
    (representation_invariant ⟨[0, 0, 0], 20⟩ ⟨[32, 0, 0], 20⟩
      (Evolves.set _ _ 5 Evolves.start (by decide))).2.1 20 New_20⟩

end Bitset
